import Mathlib

/-!
Verification of `factorizer/factorization/operations.py`.

Tensors are modelled as dense row-major buffers: a shape (list of extents)
together with a flat data list.  An einops-style rearrangement is a pure
permutation of the flat index space: the output flat index is decomposed
into elementary digits (row-major over the output side's elementary axes),
the digits are permuted to the input side's order, and recomposed.
-/

namespace Factorizer

/-- Tensor model: a shape together with row-major flat data. -/
structure Tensor (α : Type) where
  shape : List Nat
  data : List α
deriving DecidableEq

instance {α : Type} : Inhabited (Tensor α) := ⟨⟨[], []⟩⟩

/-- Row-major flat index of a digit list under a list of extents
(last axis fastest). -/
def flattenIdx : List Nat → List Nat → Nat
  | _ :: es, d :: ds => d * es.prod + flattenIdx es ds
  | _, _ => 0

/-- Row-major digit decomposition of a flat index under a list of extents. -/
def unflattenIdx : List Nat → Nat → List Nat
  | [], _ => []
  | _ :: es, k => k / es.prod :: unflattenIdx es (k % es.prod)

theorem unflattenIdx_length (es : List Nat) (k : Nat) :
    (unflattenIdx es k).length = es.length := by
  induction es generalizing k with
  | nil => simp [unflattenIdx]
  | cons e es ih => simp [unflattenIdx, ih]

theorem flattenIdx_lt {ds es : List Nat} (h : List.Forall₂ (· < ·) ds es) :
    flattenIdx es ds < es.prod := by
  induction h with
  | nil => simp [flattenIdx]
  | @cons d e ds es hde _ ih =>
    simp only [flattenIdx, List.prod_cons]
    calc d * es.prod + flattenIdx es ds < d * es.prod + es.prod := by omega
    _ = (d + 1) * es.prod := by ring
    _ ≤ e * es.prod := Nat.mul_le_mul_right _ hde

theorem unflattenIdx_bounds {es : List Nat} {k : Nat} (h : k < es.prod) :
    List.Forall₂ (· < ·) (unflattenIdx es k) es := by
  induction es generalizing k with
  | nil => exact List.Forall₂.nil
  | cons e es ih =>
    simp only [List.prod_cons] at h
    have hp : 0 < es.prod := by
      rcases Nat.eq_zero_or_pos es.prod with h0 | h0
      · rw [h0, Nat.mul_zero] at h; exact absurd h (Nat.not_lt_zero _)
      · exact h0
    refine List.Forall₂.cons ?_ (ih (Nat.mod_lt _ hp))
    exact (Nat.div_lt_iff_lt_mul hp).2 h

theorem flattenIdx_unflattenIdx {es : List Nat} {k : Nat} (h : k < es.prod) :
    flattenIdx es (unflattenIdx es k) = k := by
  induction es generalizing k with
  | nil =>
    simp only [List.prod_nil, Nat.lt_one_iff] at h
    subst h; rfl
  | cons e es ih =>
    simp only [List.prod_cons] at h
    have hp : 0 < es.prod := by
      rcases Nat.eq_zero_or_pos es.prod with h0 | h0
      · rw [h0, Nat.mul_zero] at h; exact absurd h (Nat.not_lt_zero _)
      · exact h0
    simp only [unflattenIdx, flattenIdx]
    rw [ih (Nat.mod_lt _ hp), Nat.mul_comm]
    exact Nat.div_add_mod k es.prod

theorem unflattenIdx_flattenIdx {ds es : List Nat}
    (h : List.Forall₂ (· < ·) ds es) :
    unflattenIdx es (flattenIdx es ds) = ds := by
  induction h with
  | nil => rfl
  | @cons d e ds es hde htail ih =>
    have hlt : flattenIdx es ds < es.prod := flattenIdx_lt htail
    have hp : 0 < es.prod := Nat.pos_of_ne_zero (by omega)
    simp only [flattenIdx, unflattenIdx]
    rw [Nat.mul_comm d es.prod, Nat.mul_add_mod, Nat.mod_eq_of_lt hlt, ih,
      Nat.mul_add_div hp, Nat.div_eq_of_lt hlt]
    simp

/-- Reorder a digit list aligned with `src` (one digit per axis name) into the
order of `dst`, looking each name up by position. -/
def permD (src dst : List String) (dg : List Nat) : List Nat :=
  dst.map (fun nm => dg.getD (src.indexOf nm) 0)

theorem permD_length (src dst : List String) (dg : List Nat) :
    (permD src dst dg).length = dst.length := by
  simp [permD]

theorem forall₂_map_map {β : Type} {R : Nat → Nat → Prop} (L : List β)
    (f g : β → Nat) (h : ∀ a ∈ L, R (f a) (g a)) :
    List.Forall₂ R (L.map f) (L.map g) := by
  induction L with
  | nil => exact List.Forall₂.nil
  | cons a L ih =>
    exact List.Forall₂.cons (h a (by simp)) (ih (fun b hb => h b (by simp [hb])))

theorem forall₂_get {R : Nat → Nat → Prop} {ds es : List Nat}
    (h : List.Forall₂ R ds es) (i : Nat) (hi : i < ds.length) :
    R (ds.getD i 0) (es.getD i 0) := by
  induction h generalizing i with
  | nil => simp at hi
  | @cons d e ds es hde htail ih =>
    cases i with
    | zero => simpa using hde
    | succ j => simpa using ih j (by simpa using hi)

theorem permD_bounds (src dst : List String) (e : String → Nat) (dg : List Nat)
    (hsub : ∀ nm ∈ dst, nm ∈ src)
    (hb : List.Forall₂ (· < ·) dg (src.map e)) :
    List.Forall₂ (· < ·) (permD src dst dg) (dst.map e) := by
  refine forall₂_map_map dst _ _ (fun nm hnm => ?_)
  have hmem : nm ∈ src := hsub nm hnm
  have hidx : src.indexOf nm < src.length := List.indexOf_lt_length.2 hmem
  have hlen : dg.length = src.length := by
    have := List.Forall₂.length_eq hb
    simpa using this
  have := forall₂_get hb (src.indexOf nm) (by omega)
  have hget : (src.map e).getD (src.indexOf nm) 0 = e nm := by
    rw [List.getD_eq_getElem?_getD, List.getElem?_map]
    rw [List.getElem?_eq_getElem hidx]
    simp [List.getElem_indexOf hidx]
  rwa [hget] at this

theorem permD_roundtrip (src dst : List String) (dg : List Nat)
    (hnd : src.Nodup) (hperm : dst.Perm src) (hlen : dg.length = src.length) :
    permD dst src (permD src dst dg) = dg := by
  have hlen2 : (permD dst src (permD src dst dg)).length = dg.length := by
    simp [permD, hlen, hperm.length_eq]
  apply List.ext_getElem (by omega)
  intro i hi hi2
  have hisrc : i < src.length := by simpa [permD] using hi
  have hmem_src : src[i] ∈ src := List.getElem_mem _
  have hmem_dst : src[i] ∈ dst := hperm.mem_iff.2 hmem_src
  have hidxd : dst.indexOf src[i] < dst.length := List.indexOf_lt_length.2 hmem_dst
  have step1 : (permD dst src (permD src dst dg))[i] =
      (permD src dst dg).getD (dst.indexOf src[i]) 0 := by
    simp [permD]
  have step2 : (permD src dst dg).getD (dst.indexOf src[i]) 0 =
      dg.getD (src.indexOf dst[dst.indexOf src[i]]) 0 := by
    rw [List.getD_eq_getElem?_getD]
    unfold permD
    rw [List.getElem?_map, List.getElem?_eq_getElem hidxd]
    simp
  have step3 : dst[dst.indexOf src[i]] = src[i] := List.getElem_indexOf hidxd
  have step4 : src.indexOf src[i] = i := List.indexOf_getElem hnd i hisrc
  rw [step1, step2, step3, step4]
  rw [List.getD_eq_getElem?_getD, List.getElem?_eq_getElem (by omega)]
  simp

/-- Map the flat index `k`, read as row-major digits over `src`'s extents, to
the flat index of the same digits laid out in `dst`'s order. -/
def idxMap (src dst : List String) (e : String → Nat) (k : Nat) : Nat :=
  flattenIdx (dst.map e) (permD src dst (unflattenIdx (src.map e) k))

theorem idxMap_lt (src dst : List String) (e : String → Nat) (k : Nat)
    (hsub : ∀ nm ∈ dst, nm ∈ src) (hk : k < (src.map e).prod) :
    idxMap src dst e k < (dst.map e).prod := by
  exact flattenIdx_lt (permD_bounds src dst e _ hsub (unflattenIdx_bounds hk))

theorem idxMap_idxMap (src dst : List String) (e : String → Nat) (k : Nat)
    (hnd : dst.Nodup) (hperm : src.Perm dst) (hk : k < (dst.map e).prod) :
    idxMap src dst e (idxMap dst src e k) = k := by
  have hsub : ∀ nm ∈ src, nm ∈ dst := fun nm h => hperm.mem_iff.1 h
  have hb1 : List.Forall₂ (· < ·) (unflattenIdx (dst.map e) k) (dst.map e) :=
    unflattenIdx_bounds hk
  have hb2 : List.Forall₂ (· < ·)
      (permD dst src (unflattenIdx (dst.map e) k)) (src.map e) :=
    permD_bounds dst src e _ hsub hb1
  unfold idxMap
  rw [unflattenIdx_flattenIdx hb2]
  have hlen : (unflattenIdx (dst.map e) k).length = dst.length := by
    simp [unflattenIdx_length]
  rw [permD_roundtrip dst src _ hnd hperm hlen]
  exact flattenIdx_unflattenIdx hk

/-- Size of one physical axis: product of the extents of its member axes. -/
def gSize (e : String → Nat) (ds : List String) : Nat := (ds.map e).prod

/-- Execute a rearrangement from left groups `l` to right groups `r` with fully
resolved extents `e`: a pure permutation of the row-major flat index space
(split each input axis into member digits, permute to the right-side order,
re-merge), exactly the semantics of einops `Rearrange` once all axis lengths
are known. -/
def runRe {α : Type} [Inhabited α] (l r : List (List String)) (e : String → Nat)
    (x : Tensor α) : Tensor α :=
  ⟨r.map (gSize e),
   List.ofFn (fun k : Fin ((r.flatten.map e).prod) =>
     x.data.getD (idxMap r.flatten l.flatten e k.val) default)⟩

theorem prod_map_flatten (e : String → Nat) (l : List (List String)) :
    (l.flatten.map e).prod = (l.map (gSize e)).prod := by
  rw [List.map_flatten, List.prod_flatten, List.map_map]
  rfl

theorem ofFn_getD {α : Type} [Inhabited α] (xs : List α) :
    List.ofFn (fun k : Fin xs.length => xs.getD k.val default) = xs := by
  have h : (fun k : Fin xs.length => xs.getD k.val default) =
      (fun k : Fin xs.length => xs[(k : Nat)]) := by
    funext k
    rw [List.getD_eq_getElem?_getD, List.getElem?_eq_getElem k.isLt]
    rfl
  rw [h, List.ofFn_getElem]

theorem runRe_roundtrip {α : Type} [Inhabited α] (l r : List (List String))
    (e : String → Nat) (x : Tensor α)
    (hnd : l.flatten.Nodup) (hperm : r.flatten.Perm l.flatten)
    (hsh : x.shape = l.map (gSize e))
    (hlen : x.data.length = x.shape.prod) :
    runRe r l e (runRe l r e x) = x := by
  have hndr : r.flatten.Nodup := hperm.nodup_iff.2 hnd
  have hprod_lr : (r.flatten.map e).prod = (l.flatten.map e).prod :=
    (hperm.map e).prod_eq
  have hxlen : x.data.length = (l.flatten.map e).prod := by
    rw [hlen, hsh, prod_map_flatten]
  obtain ⟨sh, dat⟩ := x
  simp only at hsh hlen hxlen
  subst hsh
  unfold runRe
  simp only [Tensor.mk.injEq]
  constructor
  · trivial
  · have hdata : ∀ k : Fin ((l.flatten.map e).prod),
        (List.ofFn (fun j : Fin ((r.flatten.map e).prod) =>
          dat.getD (idxMap r.flatten l.flatten e j.val) default)).getD
            (idxMap l.flatten r.flatten e k.val) default =
          dat.getD k.val default := by
      intro k
      have hk : (k : Nat) < (l.flatten.map e).prod := k.isLt
      have hsub : ∀ nm ∈ r.flatten, nm ∈ l.flatten :=
        fun nm h => hperm.mem_iff.1 h
      have hlt : idxMap l.flatten r.flatten e k.val < (r.flatten.map e).prod :=
        idxMap_lt l.flatten r.flatten e k.val hsub hk
      rw [List.getD_eq_getElem?_getD,
        List.getElem?_eq_getElem (by simpa using hlt)]
      simp only [List.getElem_ofFn, Option.getD_some]
      rw [idxMap_idxMap r.flatten l.flatten e k.val hnd hperm hk]
    have hofn := ofFn_getD (α := α) dat
    rw [hxlen] at hofn
    exact (congrArg List.ofFn (funext hdata)).trans hofn

/-- Net cyclic shift applied to axis `i` by `torch.roll(x, shifts, dims)`:
the sum of the entries of `shifts` whose paired entry of `dims` is `i`
(pairs beyond the shorter list are ignored, as with `zip`). -/
def totShift (shifts : List Int) (dims : List Nat) (i : Nat) : Int :=
  match shifts, dims with
  | s :: ss, d :: ds => (if d = i then s else 0) + totShift ss ds i
  | _, _ => 0

theorem totShift_neg (shifts : List Int) (dims : List Nat) (i : Nat) :
    totShift (shifts.map Neg.neg) dims i = -totShift shifts dims i := by
  induction shifts generalizing dims with
  | nil => simp [totShift]
  | cons s ss ih =>
    cases dims with
    | nil => simp [totShift]
    | cons d ds =>
      simp only [List.map_cons, totShift, ih]
      split_ifs <;> ring

/-- Digits of a rolled tensor: digit `d` of axis `i` (extent `n`) becomes
`(d - netShift i) mod n`, i.e. `out[j] = in[j - shift]` with wrap-around. -/
def rollDg (shifts : List Int) (dims : List Nat) : Nat → List Nat → List Nat → List Nat
  | i, d :: ds, n :: ns =>
      (((d : Int) - totShift shifts dims i) % (n : Int)).toNat ::
        rollDg shifts dims (i + 1) ds ns
  | _, _, _ => []

theorem rollDg_bounds (shifts : List Int) (dims : List Nat) (i : Nat)
    {ds ns : List Nat} (h : List.Forall₂ (· < ·) ds ns) :
    List.Forall₂ (· < ·) (rollDg shifts dims i ds ns) ns := by
  induction h generalizing i with
  | nil => exact List.Forall₂.nil
  | @cons d n ds ns hdn _ ih =>
    refine List.Forall₂.cons ?_ (ih (i + 1))
    have hn : 0 < (n : Int) := by exact_mod_cast Nat.pos_of_ne_zero (by omega)
    have h2 : ((d : Int) - totShift shifts dims i) % (n : Int) < (n : Int) :=
      Int.emod_lt_of_pos _ hn
    have h1 : 0 ≤ ((d : Int) - totShift shifts dims i) % (n : Int) :=
      Int.emod_nonneg _ (by omega)
    omega

theorem rollDg_cancel (shifts : List Int) (dims : List Nat) (i : Nat)
    {ds ns : List Nat} (h : List.Forall₂ (· < ·) ds ns) :
    rollDg (shifts.map Neg.neg) dims i (rollDg shifts dims i ds ns) ns = ds := by
  induction h generalizing i with
  | nil => rfl
  | @cons d n ds ns hdn _ ih =>
    simp only [rollDg, totShift_neg]
    refine congrArg₂ List.cons ?_ (ih (i + 1))
    have hn : 0 < (n : Int) := by exact_mod_cast Nat.pos_of_ne_zero (by omega)
    have h1 : 0 ≤ ((d : Int) - totShift shifts dims i) % (n : Int) :=
      Int.emod_nonneg _ (by omega)
    rw [Int.toNat_of_nonneg h1, sub_neg_eq_add, Int.emod_add_emod]
    have : (d : Int) - totShift shifts dims i + totShift shifts dims i = (d : Int) := by
      ring
    rw [this, Int.emod_eq_of_lt (by omega) (by exact_mod_cast hdn)]
    exact Int.toNat_natCast d

/-- Model of `torch.roll(x, shifts, dims)`: wrap-around rotation of the data
along the given axes; shape is unchanged. -/
def rollT {α : Type} [Inhabited α] (shifts : List Int) (dims : List Nat)
    (x : Tensor α) : Tensor α :=
  ⟨x.shape,
   List.ofFn (fun k : Fin x.shape.prod =>
     x.data.getD
       (flattenIdx x.shape (rollDg shifts dims 0 (unflattenIdx x.shape k.val) x.shape))
       default)⟩

theorem rollT_shape {α : Type} [Inhabited α] (shifts : List Int) (dims : List Nat)
    (x : Tensor α) : (rollT shifts dims x).shape = x.shape := rfl

theorem rollT_data_length {α : Type} [Inhabited α] (shifts : List Int)
    (dims : List Nat) (x : Tensor α) :
    (rollT shifts dims x).data.length = x.shape.prod := by
  simp [rollT]

theorem rollT_cancel {α : Type} [Inhabited α] (shifts : List Int) (dims : List Nat)
    (x : Tensor α) (hlen : x.data.length = x.shape.prod) :
    rollT (shifts.map Neg.neg) dims (rollT shifts dims x) = x := by
  obtain ⟨sh, dat⟩ := x
  simp only at hlen
  unfold rollT
  simp only [Tensor.mk.injEq]
  refine ⟨trivial, ?_⟩
  have hdata : ∀ k : Fin sh.prod,
      (List.ofFn (fun j : Fin sh.prod =>
        dat.getD (flattenIdx sh (rollDg shifts dims 0 (unflattenIdx sh j.val) sh))
          default)).getD
        (flattenIdx sh (rollDg (shifts.map Neg.neg) dims 0 (unflattenIdx sh k.val) sh))
        default = dat.getD k.val default := by
    intro k
    have hb0 : List.Forall₂ (· < ·) (unflattenIdx sh k.val) sh :=
      unflattenIdx_bounds k.isLt
    have hb1 : List.Forall₂ (· < ·)
        (rollDg (shifts.map Neg.neg) dims 0 (unflattenIdx sh k.val) sh) sh :=
      rollDg_bounds _ _ _ hb0
    have hlt : flattenIdx sh (rollDg (shifts.map Neg.neg) dims 0
        (unflattenIdx sh k.val) sh) < sh.prod := flattenIdx_lt hb1
    rw [List.getD_eq_getElem?_getD, List.getElem?_eq_getElem (by simpa using hlt)]
    simp only [List.getElem_ofFn, Option.getD_some]
    rw [unflattenIdx_flattenIdx hb1]
    have hcanc := rollDg_cancel (shifts.map Neg.neg) dims 0 hb0
    rw [List.map_map] at hcanc
    have hneg : (Neg.neg ∘ Neg.neg : Int → Int) = id := by
      funext a; simp
    rw [hneg, List.map_id] at hcanc
    rw [hcanc, flattenIdx_unflattenIdx k.isLt]
  have hofn := ofFn_getD (α := α) dat
  rw [hlen] at hofn
  exact (congrArg List.ofFn (funext hdata)).trans hofn

/-- Association-list model of a Python `dict` from axis names to extents. -/
abbrev Dict := List (String × Nat)

/-- Dictionary lookup (first binding wins, as in a Python dict where keys are
unique). -/
def dget : Dict → String → Option Nat
  | [], _ => none
  | (k, v) :: t, nm => if k = nm then some v else dget t nm

/-- Dictionary update: overwrite the binding if the key is present, else
append it (Python `d[k] = v` insertion-order semantics). -/
def dset : Dict → String → Nat → Dict
  | [], k, v => [(k, v)]
  | (k', v') :: t, k, v =>
      if k' = k then (k, v) :: t else (k', v') :: dset t k v

theorem dget_dset_self (A : Dict) (k : String) (v : Nat) :
    dget (dset A k v) k = some v := by
  induction A with
  | nil => simp [dset, dget]
  | cons p t ih =>
    obtain ⟨k', v'⟩ := p
    by_cases h : k' = k
    · simp [dset, h, dget]
    · simp [dset, h, dget, ih]

theorem dget_dset_ne (A : Dict) (k nm : String) (v : Nat) (h : k ≠ nm) :
    dget (dset A k v) nm = dget A nm := by
  induction A with
  | nil => simp [dset, dget, h]
  | cons p t ih =>
    obtain ⟨k', v'⟩ := p
    by_cases h2 : k' = k
    · subst h2; simp [dset, dget, h]
    · simp only [dset, if_neg h2]
      by_cases h3 : k' = nm <;> simp [dget, h3, ih]

theorem dget_append (D A : Dict) (nm : String) :
    dget (D ++ A) nm = match dget D nm with
      | some v => some v
      | none => dget A nm := by
  induction D with
  | nil => simp [dget]
  | cons p t ih =>
    obtain ⟨k, v⟩ := p
    by_cases h : k = nm <;> simp [dget, h, ih]

theorem dget_append_left (D A : Dict) (nm : String) (v : Nat)
    (h : dget D nm = some v) : dget (D ++ A) nm = some v := by
  rw [dget_append, h]

theorem dget_append_right (D A : Dict) (nm : String)
    (h : dget D nm = none) : dget (D ++ A) nm = dget A nm := by
  rw [dget_append, h]

/-- Lookup in a dictionary of the shape `ds.map (fun d => (d, f d))`. -/
theorem dget_map_pair (ds : List String) (f : String → Nat) (nm : String) :
    dget (ds.map (fun d => (d, f d))) nm =
      if nm ∈ ds then some (f nm) else none := by
  induction ds with
  | nil => simp [dget]
  | cons d ds ih =>
    by_cases h : d = nm
    · subst h; simp [dget]
    · simp only [List.map_cons, dget, if_neg h, ih]
      by_cases h2 : nm ∈ ds <;> simp [h2, List.mem_cons, Ne.symm h, h]

/-- Product of the extents of the already-known member axes of a group
(`reduce(mul, (dim_lengths[d] for d in dims if d in dim_lengths), 1)`). -/
def prodKnown (ds : List String) (known : Dict) : Nat :=
  ((ds.filter (fun d => (dget known d).isSome)).map
    (fun d => (dget known d).getD 0)).prod

/-- Number of member axes of a group already present in `known`. -/
def knownCount (ds : List String) (known : Dict) : Nat :=
  (ds.filter (fun d => (dget known d).isSome)).length

/-- One step of `Reshape.infer_dims` for a single `(group, size)` pair,
translated from `operations.py` lines 113-132: if the declared size is `None`
or fewer than `len(dims) - 1` member axes are known, copy the known members
only; otherwise assign every member its known extent or the floor quotient
`s // known_product`. -/
def copyKnown (known acc : Dict) (ds : List String) : Dict :=
  ds.foldl (fun a d =>
    match dget known d with
    | some v => dset a d v
    | none => a) acc

def assignAll (known : Dict) (w : Nat) (acc : Dict) (ds : List String) : Dict :=
  ds.foldl (fun a d => dset a d ((dget known d).getD w)) acc

def inferStep (known acc : Dict) (ds : List String) (s : Option Nat) : Dict :=
  match s with
  | none => copyKnown known acc ds
  | some n =>
      if knownCount ds known < ds.length - 1 then copyKnown known acc ds
      else assignAll known (n / prodKnown ds known) acc ds

def inferGo (known : Dict) : List (List String) → List (Option Nat) → Dict → Dict
  | [], _, acc => acc
  | _ :: _, [], acc => acc
  | ds :: gs, s :: ss, acc => inferGo known gs ss (inferStep known acc ds s)

/-- Model of the static method `Reshape.infer_dims` (lines 105-134): fold the
per-group inference step over `zip(groups, size)`, starting from an empty
dict.  The groups are the parsed axis groups of the left pattern. -/
def infer_dims (gs : List (List String)) (size : List (Option Nat))
    (known : Dict) : Dict :=
  inferGo known gs size []

/-- Model of the static method `Reshape.compute_size` (lines 136-156): for
each right-side group, `None` if any member is missing from `dim_lengths`,
else the product of member extents. -/
def compute_size (gs : List (List String)) (dl : Dict) : List (Option Nat) :=
  gs.map (fun ds =>
    if ds.all (fun d => (dget dl d).isSome) then
      some ((ds.map (fun d => (dget dl d).getD 0)).prod)
    else none)

/-- Runtime axis-extent resolution that einops performs per physical axis when
a `Rearrange` layer is applied: with the constructor-supplied
`axes_lengths` as `known` and the actual axis size `n`, a group with no
unknown member must satisfy `product == n` exactly; a group with exactly one
unknown member requires `known_product` to divide `n` evenly and infers the
missing extent as the quotient; two or more unknown members (or a zero known
product, a `ZeroDivisionError` in the original) fail. -/
def resolveGroup (ds : List String) (known : Dict) (n : Nat) : Option Dict :=
  match ds.filter (fun d => (dget known d).isNone) with
  | [] =>
      if prodKnown ds known = n then
        some (ds.map (fun d => (d, (dget known d).getD 0)))
      else none
  | [_] =>
      if 0 < prodKnown ds known ∧ n % prodKnown ds known = 0 then
        some (ds.map (fun d => (d, (dget known d).getD (n / prodKnown ds known))))
      else none
  | _ => none

/-- Resolve every physical axis of a tensor shape against the left-side
groups; fails if the rank differs (einops checks the rank of the input
tensor against the pattern). -/
def resolveAxes (known : Dict) : List (List String) → List Nat → Option Dict
  | [], [] => some []
  | ds :: gs, n :: sh =>
      match resolveGroup ds known n, resolveAxes known gs sh with
      | some D, some A => some (D ++ A)
      | _, _ => none
  | _, _ => none

/-- Total extent assignment read off a resolved dictionary. -/
def extOf (A : Dict) (nm : String) : Nat := (dget A nm).getD 0

/-- Model of the class `Reshape` (lines 72-103) in the non-identity case:
the parsed left and right groups of the equation, the declared input size,
the constructor keyword axis hints (`**kwargs`), and the optional cyclic
shift specification. -/
structure Reshape where
  left : List (List String)
  right : List (List String)
  input_size : List (Option Nat)
  kwargs : Dict
  shifts : Option (List Int)
  dims : List Nat
deriving DecidableEq

/-- The eagerly inferred `self.dim_lengths` (line 94). -/
def Reshape.dim_lengths (T : Reshape) : Dict :=
  infer_dims T.left T.input_size T.kwargs

/-- The `self.output_size` computed at construction (line 95). -/
def Reshape.output_size (T : Reshape) : List (Option Nat) :=
  compute_size T.right T.dim_lengths

/-- Apply an einops `Rearrange(pattern, **known)` layer to a tensor: resolve
all axis extents from the actual shape, then permute the flat data. `none`
models the einops exception on a shape mismatch. -/
def rearrangeApply {α : Type} [Inhabited α] (l r : List (List String))
    (known : Dict) (x : Tensor α) : Option (Tensor α) :=
  match resolveAxes known l x.shape with
  | some A => some (runRe l r (extOf A) x)
  | none => none

/-- Model of `Reshape.forward` (lines 158-163): optional `torch.roll`, then
the forward rearrangement, whose known lengths are the constructor kwargs. -/
def Reshape.forward {α : Type} [Inhabited α] (T : Reshape) (x : Tensor α) :
    Option (Tensor α) :=
  match T.shifts with
  | some s => rearrangeApply T.left T.right T.kwargs (rollT s T.dims x)
  | none => rearrangeApply T.left T.right T.kwargs x

/-- Model of `Reshape.inverse_forward` (lines 165-170): the inverse
rearrangement (pattern sides swapped, known lengths `self.dim_lengths`),
then the negated roll. -/
def Reshape.inverse_forward {α : Type} [Inhabited α] (T : Reshape)
    (y : Tensor α) : Option (Tensor α) :=
  match rearrangeApply T.right T.left T.dim_lengths y with
  | some z =>
      some (match T.shifts with
        | some s => rollT (s.map Neg.neg) T.dims z
        | none => z)
  | none => none

theorem prod_filter_partition (p : String → Bool) (f : String → Nat)
    (ds : List String) :
    ((ds.filter p).map f).prod * ((ds.filter (fun d => !(p d))).map f).prod =
      (ds.map f).prod := by
  induction ds with
  | nil => simp
  | cons d ds ih =>
    cases hp : p d
    · rw [show List.filter p (d :: ds) = List.filter p ds by
          simp [List.filter_cons, hp],
        show List.filter (fun x => !(p x)) (d :: ds) =
            d :: List.filter (fun x => !(p x)) ds by
          simp [List.filter_cons, hp]]
      simp only [List.map_cons, List.prod_cons]
      rw [← ih]; ring
    · rw [show List.filter p (d :: ds) = d :: List.filter p ds by
          simp [List.filter_cons, hp],
        show List.filter (fun x => !(p x)) (d :: ds) =
            List.filter (fun x => !(p x)) ds by
          simp [List.filter_cons, hp]]
      simp only [List.map_cons, List.prod_cons]
      rw [← ih]; ring

theorem resolveGroup_dget {ds : List String} {known : Dict} {n : Nat} {D : Dict}
    (h : resolveGroup ds known n = some D) {nm : String} (hmem : nm ∈ ds) :
    dget D nm = some ((dget known nm).getD (n / prodKnown ds known)) := by
  unfold resolveGroup at h
  split at h
  · next hfilter =>
    split at h
    · injection h with hD
      subst hD
      rw [dget_map_pair, if_pos hmem]
      cases hd : dget known nm with
      | none =>
        have hin : nm ∈ ds.filter (fun d => (dget known d).isNone) := by
          rw [List.mem_filter]
          exact ⟨hmem, by simp [hd]⟩
        rw [hfilter] at hin
        simp at hin
      | some w => simp [hd]
    · exact absurd h (by simp)
  · next u hfilter =>
    split at h
    · injection h with hD
      subst hD
      rw [dget_map_pair, if_pos hmem]
    · exact absurd h (by simp)
  · exact absurd h (by simp)

theorem resolveGroup_not_mem {ds : List String} {known : Dict} {n : Nat}
    {D : Dict} (h : resolveGroup ds known n = some D) {nm : String}
    (hmem : nm ∉ ds) : dget D nm = none := by
  unfold resolveGroup at h
  split at h
  · split at h
    · injection h with hD
      subst hD
      rw [dget_map_pair, if_neg hmem]
    · exact absurd h (by simp)
  · split at h
    · injection h with hD
      subst hD
      rw [dget_map_pair, if_neg hmem]
    · exact absurd h (by simp)
  · exact absurd h (by simp)

theorem resolveGroup_prod {ds : List String} {known : Dict} {n : Nat} {D : Dict}
    (h : resolveGroup ds known n = some D) :
    (ds.map (extOf D)).prod = n := by
  have hval : ∀ nm ∈ ds,
      extOf D nm = (dget known nm).getD (n / prodKnown ds known) := by
    intro nm hmem
    unfold extOf
    rw [resolveGroup_dget h hmem]
    rfl
  rw [List.map_congr_left hval]
  have hpart := prod_filter_partition (fun d => (dget known d).isSome)
    (fun d => (dget known d).getD (n / prodKnown ds known)) ds
  have hnotp : (fun d => !(dget known d).isSome) =
      (fun d => (dget known d).isNone) := by
    funext d
    cases dget known d <;> rfl
  rw [hnotp] at hpart
  have hsome : ((ds.filter (fun d => (dget known d).isSome)).map
      (fun d => (dget known d).getD (n / prodKnown ds known))).prod =
      prodKnown ds known := by
    unfold prodKnown
    congr 1
    apply List.map_congr_left
    intro d hd
    rw [List.mem_filter] at hd
    obtain ⟨w, hw⟩ := Option.isSome_iff_exists.1 hd.2
    rw [hw]
    rfl
  unfold resolveGroup at h
  split at h
  · next hfilter =>
    split at h
    · next hck =>
      rw [← hpart, hsome, hfilter]
      simpa using hck
    · exact absurd h (by simp)
  · next u hfilter =>
    split at h
    · next hck =>
      rw [← hpart, hsome, hfilter]
      have hu2 : dget known u = none := by
        have hin : u ∈ ds.filter (fun d => (dget known d).isNone) := by
          rw [hfilter]; simp
        rw [List.mem_filter] at hin
        cases hd : dget known u
        · rfl
        · rw [hd] at hin; simp at hin
      simp only [List.map_cons, List.map_nil, List.prod_cons, List.prod_nil,
        hu2, Option.getD_none, Nat.mul_one]
      exact Nat.mul_div_cancel' (Nat.dvd_of_mod_eq_zero hck.2)
    · exact absurd h (by simp)
  · exact absurd h (by simp)

theorem resolveAxes_length {known : Dict} :
    ∀ {gs : List (List String)} {sh : List Nat} {A : Dict},
    resolveAxes known gs sh = some A → sh.length = gs.length := by
  intro gs
  induction gs with
  | nil =>
    intro sh A h
    cases sh
    · rfl
    · simp [resolveAxes] at h
  | cons ds gs ih =>
    intro sh A h
    cases sh with
    | nil => simp [resolveAxes] at h
    | cons n sh =>
      simp only [resolveAxes] at h
      split at h
      · next _ _ hD hA =>
        simpa using congrArg Nat.succ (ih hA)
      · exact absurd h (by simp)

theorem resolveAxes_not_mem {known : Dict} :
    ∀ {gs : List (List String)} {sh : List Nat} {A : Dict},
    resolveAxes known gs sh = some A → ∀ {nm : String}, nm ∉ gs.flatten →
    dget A nm = none := by
  intro gs
  induction gs with
  | nil =>
    intro sh A h nm _
    cases sh
    · simp only [resolveAxes] at h
      injection h with h
      subst h
      rfl
    · simp [resolveAxes] at h
  | cons ds gs ih =>
    intro sh A h nm hnm
    cases sh with
    | nil => simp [resolveAxes] at h
    | cons n sh =>
      simp only [resolveAxes] at h
      split at h
      · next _ _ hD hA =>
        injection h with h
        subst h
        simp only [List.flatten_cons, List.mem_append] at hnm
        push_neg at hnm
        rw [dget_append_right _ _ _ (resolveGroup_not_mem hD hnm.1)]
        exact ih hA hnm.2
      · exact absurd h (by simp)

theorem resolveAxes_shape {known : Dict} :
    ∀ {gs : List (List String)} {sh : List Nat} {A : Dict},
    gs.flatten.Nodup → resolveAxes known gs sh = some A →
    sh = gs.map (gSize (extOf A)) := by
  intro gs
  induction gs with
  | nil =>
    intro sh A _ h
    cases sh
    · rfl
    · simp [resolveAxes] at h
  | cons ds gs ih =>
    intro sh A hnd h
    cases sh with
    | nil => simp [resolveAxes] at h
    | cons n sh =>
      simp only [resolveAxes] at h
      split at h
      · next D A' hD hA =>
        injection h with h
        subst h
        simp only [List.flatten_cons, List.nodup_append] at hnd
        obtain ⟨hnd1, hnd2, hdisj⟩ := hnd
        simp only [List.map_cons, List.cons.injEq]
        constructor
        · rw [show gSize (extOf (D ++ A')) ds = (ds.map (extOf (D ++ A'))).prod
            from rfl]
          have hcong : ∀ nm ∈ ds, extOf (D ++ A') nm = extOf D nm := by
            intro nm hmem
            unfold extOf
            rw [dget_append_left _ _ _ _ (resolveGroup_dget hD hmem)]
            rw [resolveGroup_dget hD hmem]
          rw [List.map_congr_left hcong]
          exact (resolveGroup_prod hD).symm
        · have htail := ih hnd2 hA
          rw [htail]
          apply List.map_congr_left
          intro ds' hds'
          unfold gSize
          congr 1
          apply List.map_congr_left
          intro nm hnm
          have hnmfl : nm ∈ gs.flatten := by
            rw [List.mem_flatten]
            exact ⟨ds', hds', hnm⟩
          have hnmnds : nm ∉ ds := fun hin => hdisj hin hnmfl
          unfold extOf
          rw [dget_append_right _ _ _ (resolveGroup_not_mem hD hnmnds)]
      · exact absurd h (by simp)

theorem dget_copyKnown (known : Dict) (ds : List String) :
    ∀ (acc : Dict) (nm : String),
    dget (copyKnown known acc ds) nm =
      if nm ∈ ds ∧ (dget known nm).isSome then dget known nm else dget acc nm := by
  induction ds with
  | nil => intro acc nm; simp [copyKnown]
  | cons d ds ih =>
    intro acc nm
    have hstep : copyKnown known acc (d :: ds) =
        copyKnown known (match dget known d with
          | some v => dset acc d v
          | none => acc) ds := rfl
    rw [hstep, ih]
    by_cases hds : nm ∈ ds ∧ (dget known nm).isSome
    · rw [if_pos hds, if_pos ⟨by simp [hds.1], hds.2⟩]
    · rw [if_neg hds]
      by_cases hd : d = nm
      · subst hd
        cases hk : dget known d with
        | none => simp [hk]
        | some w => simp [hk, dget_dset_self]
      · have hmain : (nm ∈ d :: ds ∧ (dget known nm).isSome) ↔
            (nm ∈ ds ∧ (dget known nm).isSome) := by
          constructor
          · rintro ⟨hmem, hs⟩
            rcases List.mem_cons.1 hmem with h1 | h1
            · exact absurd h1.symm hd
            · exact ⟨h1, hs⟩
          · rintro ⟨hmem, hs⟩
            exact ⟨by simp [hmem], hs⟩
        cases hk : dget known d with
        | none => rw [if_neg (fun hc => hds (hmain.1 hc))]
        | some w =>
          rw [if_neg (fun hc => hds (hmain.1 hc))]
          exact dget_dset_ne acc d nm w hd
  
theorem dget_assignAll (known : Dict) (w : Nat) (ds : List String) :
    ∀ (acc : Dict) (nm : String),
    dget (assignAll known w acc ds) nm =
      if nm ∈ ds then some ((dget known nm).getD w) else dget acc nm := by
  induction ds with
  | nil => intro acc nm; simp [assignAll]
  | cons d ds ih =>
    intro acc nm
    have hstep : assignAll known w acc (d :: ds) =
        assignAll known w (dset acc d ((dget known d).getD w)) ds := rfl
    rw [hstep, ih]
    by_cases hds : nm ∈ ds
    · rw [if_pos hds, if_pos (by simp [hds])]
    · rw [if_neg hds]
      by_cases hd : d = nm
      · subst hd
        rw [if_pos (by simp), dget_dset_self]
      · rw [if_neg (by
            intro hc
            rcases List.mem_cons.1 hc with h1 | h1
            · exact hd h1.symm
            · exact hds h1)]
        exact dget_dset_ne acc d nm _ hd

theorem inferStep_not_mem (known acc : Dict) (ds : List String) (s : Option Nat)
    (nm : String) (h : nm ∉ ds) :
    dget (inferStep known acc ds s) nm = dget acc nm := by
  cases s with
  | none =>
    show dget (copyKnown known acc ds) nm = dget acc nm
    rw [dget_copyKnown, if_neg (fun hc => h hc.1)]
  | some n =>
    show dget (if knownCount ds known < ds.length - 1 then copyKnown known acc ds
      else assignAll known (n / prodKnown ds known) acc ds) nm = dget acc nm
    split
    · rw [dget_copyKnown, if_neg (fun hc => h hc.1)]
    · rw [dget_assignAll, if_neg h]

/-- Construction-time inference agrees with runtime resolution: whenever the
eagerly inferred `dim_lengths` assign an extent to an axis name and the
actual tensor shape is consistent with the declared input size, the runtime
resolution assigns the same extent. -/
theorem inferGo_agree {known : Dict} :
    ∀ (gs : List (List String)) (sz : List (Option Nat)) (sh : List Nat)
      (A acc : Dict) (nm : String) (v : Nat),
    gs.flatten.Nodup →
    resolveAxes known gs sh = some A →
    (∀ (i : Nat) (n : Nat), sz[i]? = some (some n) → sh[i]? = some n) →
    (dget acc nm = some v → nm ∈ gs.flatten → dget A nm = some v) →
    dget (inferGo known gs sz acc) nm = some v →
    dget A nm = some v ∨ (dget acc nm = some v ∧ nm ∉ gs.flatten) := by
  intro gs
  induction gs with
  | nil =>
    intro sz sh A acc nm v _ _ _ _ h5
    right
    exact ⟨h5, by simp⟩
  | cons ds gs ih =>
    intro sz sh A acc nm v hnd hres hcons hacc h5
    cases sz with
    | nil =>
      by_cases hmem : nm ∈ (ds :: gs).flatten
      · exact Or.inl (hacc h5 hmem)
      · exact Or.inr ⟨h5, hmem⟩
    | cons s ss =>
      cases sh with
      | nil => simp [resolveAxes] at hres
      | cons n sh =>
        simp only [resolveAxes] at hres
        split at hres
        case h_2 => exact absurd hres (by simp)
        case h_1 D A' hD hA =>
        injection hres with hres
        subst hres
        simp only [List.flatten_cons, List.nodup_append] at hnd
        obtain ⟨hnd1, hnd2, hdisj⟩ := hnd
        have h5' : dget (inferGo known gs ss (inferStep known acc ds s)) nm =
            some v := h5
        have hcons' : ∀ (i : Nat) (n₀ : Nat), ss[i]? = some (some n₀) →
            sh[i]? = some n₀ := by
          intro i n₀ hi
          have := hcons (i + 1) n₀ (by simpa using hi)
          simpa using this
        have hDvalI : ∀ hmem : nm ∈ ds, dget (D ++ A') nm =
            some ((dget known nm).getD (n / prodKnown ds known)) := by
          intro hmem
          exact dget_append_left _ _ _ _ (resolveGroup_dget hD hmem)
        have hacc' : dget (inferStep known acc ds s) nm = some v →
            nm ∈ gs.flatten → dget A' nm = some v := by
          intro h6 hmem'
          have hnds : nm ∉ ds := fun hin => hdisj hin hmem'
          rw [inferStep_not_mem _ _ _ _ _ hnds] at h6
          have hfull := hacc h6 (by
            simp only [List.flatten_cons, List.mem_append]
            exact Or.inr hmem')
          rwa [dget_append_right _ _ _ (resolveGroup_not_mem hD hnds)] at hfull
        rcases ih ss sh A' (inferStep known acc ds s) nm v hnd2 hA hcons'
            hacc' h5' with hleft | ⟨h6, hnot⟩
        · left
          by_cases hin : nm ∈ ds
          · have : dget A' nm = none :=
              resolveAxes_not_mem hA (fun hx => hdisj hin hx)
            rw [this] at hleft
            exact absurd hleft (by simp)
          · rw [dget_append_right _ _ _ (resolveGroup_not_mem hD hin)]
            exact hleft
        · by_cases hin : nm ∈ ds
          · left
            rw [hDvalI hin]
            -- analyse what the step assigned to `nm`
            cases s with
            | none =>
              rw [show inferStep known acc ds none = copyKnown known acc ds
                  from rfl, dget_copyKnown] at h6
              by_cases hk : (dget known nm).isSome
              · rw [if_pos ⟨hin, hk⟩] at h6
                obtain ⟨w, hw⟩ := Option.isSome_iff_exists.1 hk
                rw [hw] at h6 ⊢
                injection h6 with h6
                simp [h6]
              · rw [if_neg (fun hc => hk hc.2)] at h6
                have hfull := hacc h6 (by
                  simp only [List.flatten_cons, List.mem_append]
                  exact Or.inl hin)
                rw [hDvalI hin] at hfull
                exact hfull
            | some n₀ =>
              have hn : n = n₀ := by
                have := hcons 0 n₀ (by simp)
                simpa using this
              subst hn
              rw [show inferStep known acc ds (some n) =
                  (if knownCount ds known < ds.length - 1 then
                    copyKnown known acc ds
                  else assignAll known (n / prodKnown ds known) acc ds)
                  from rfl] at h6
              split at h6
              · rw [dget_copyKnown] at h6
                by_cases hk : (dget known nm).isSome
                · rw [if_pos ⟨hin, hk⟩] at h6
                  obtain ⟨w, hw⟩ := Option.isSome_iff_exists.1 hk
                  rw [hw] at h6 ⊢
                  injection h6 with h6
                  simp [h6]
                · rw [if_neg (fun hc => hk hc.2)] at h6
                  have hfull := hacc h6 (by
                    simp only [List.flatten_cons, List.mem_append]
                    exact Or.inl hin)
                  rw [hDvalI hin] at hfull
                  exact hfull
              · rw [dget_assignAll, if_pos hin] at h6
                exact h6.symm ▸ rfl
          · right
            rw [inferStep_not_mem _ _ _ _ _ hin] at h6
            refine ⟨h6, ?_⟩
            simp only [List.flatten_cons, List.mem_append]
            rintro (hc | hc)
            · exact hin hc
            · exact hnot hc

theorem resolveGroup_exists (known : Dict) (ds : List String) (e : String → Nat)
    (hag : ∀ nm v, dget known nm = some v → nm ∈ ds → e nm = v)
    (hpos : ∀ nm v, dget known nm = some v → 0 < v)
    (hone : (ds.filter (fun d => (dget known d).isNone)).length ≤ 1) :
    ∃ D, resolveGroup ds known (gSize e ds) = some D ∧
      (∀ nm ∈ ds, dget D nm = some (e nm)) ∧
      (∀ nm, nm ∉ ds → dget D nm = none) := by
  have hnotp : (fun d => !(dget known d).isSome) =
      (fun d => (dget known d).isNone) := by
    funext d
    cases dget known d <;> rfl
  have hkpe : prodKnown ds known =
      ((ds.filter (fun d => (dget known d).isSome)).map e).prod := by
    unfold prodKnown
    congr 1
    apply List.map_congr_left
    intro d hd
    rw [List.mem_filter] at hd
    obtain ⟨w, hw⟩ := Option.isSome_iff_exists.1 hd.2
    rw [hw]
    exact (hag d w hw hd.1).symm
  have hpart := prod_filter_partition (fun d => (dget known d).isSome) e ds
  rw [hnotp] at hpart
  unfold resolveGroup
  cases hfilter : ds.filter (fun d => (dget known d).isNone) with
  | nil =>
    have hn : prodKnown ds known = gSize e ds := by
      rw [hkpe]
      unfold gSize
      rw [← hpart, hfilter]
      simp
    refine ⟨ds.map (fun d => (d, (dget known d).getD 0)), ?_, ?_, ?_⟩
    · show (if prodKnown ds known = gSize e ds then
          some (ds.map (fun d => (d, (dget known d).getD 0))) else none) = _
      rw [if_pos hn]
    · intro nm hmem
      rw [dget_map_pair, if_pos hmem]
      have hsome : (dget known nm).isSome := by
        by_contra hc
        have : nm ∈ ds.filter (fun d => (dget known d).isNone) := by
          rw [List.mem_filter]
          refine ⟨hmem, ?_⟩
          cases hk : dget known nm
          · rfl
          · rw [hk] at hc; simp at hc
        rw [hfilter] at this
        simp at this
      obtain ⟨w, hw⟩ := Option.isSome_iff_exists.1 hsome
      rw [hw]
      simp [hag nm w hw hmem]
    · intro nm hnm
      rw [dget_map_pair, if_neg hnm]
  | cons u us =>
    cases us with
    | cons _ _ =>
      exfalso
      rw [hfilter] at hone
      simp at hone
    | nil =>
      have humem : u ∈ ds ∧ (dget known u).isNone := by
        have : u ∈ ds.filter (fun d => (dget known d).isNone) := by
          rw [hfilter]; simp
        rw [List.mem_filter] at this
        exact this
      have hkp_pos : 0 < prodKnown ds known := by
        rw [hkpe]
        apply List.prod_pos
        intro a ha
        rw [List.mem_map] at ha
        obtain ⟨d, hd, hde⟩ := ha
        rw [List.mem_filter] at hd
        obtain ⟨w, hw⟩ := Option.isSome_iff_exists.1 hd.2
        have := hpos d w hw
        rw [← hde, hag d w hw hd.1]
        exact this
      have hn : gSize e ds = prodKnown ds known * e u := by
        unfold gSize
        rw [← hpart, hfilter, hkpe]
        simp
      have hmod : gSize e ds % prodKnown ds known = 0 := by
        rw [hn]
        exact Nat.mul_mod_right _ _
      have hdiv : gSize e ds / prodKnown ds known = e u := by
        rw [hn]
        exact Nat.mul_div_cancel_left _ hkp_pos
      refine ⟨ds.map (fun d =>
        (d, (dget known d).getD (gSize e ds / prodKnown ds known))), ?_, ?_, ?_⟩
      · show (if 0 < prodKnown ds known ∧ gSize e ds % prodKnown ds known = 0 then
            some (ds.map (fun d =>
              (d, (dget known d).getD (gSize e ds / prodKnown ds known))))
          else none) = _
        rw [if_pos ⟨hkp_pos, hmod⟩]
      · intro nm hmem
        rw [dget_map_pair, if_pos hmem]
        cases hk : dget known nm with
        | some w => simp [hag nm w hk hmem]
        | none =>
          have : nm ∈ ds.filter (fun d => (dget known d).isNone) := by
            rw [List.mem_filter]
            exact ⟨hmem, by simp [hk]⟩
          rw [hfilter] at this
          simp at this
          subst this
          simp [hdiv]
      · intro nm hnm
        rw [dget_map_pair, if_neg hnm]

theorem resolveAxes_exists (known : Dict) :
    ∀ (gs : List (List String)) (e : String → Nat),
    (∀ nm v, dget known nm = some v → nm ∈ gs.flatten → e nm = v) →
    (∀ nm v, dget known nm = some v → 0 < v) →
    (∀ ds ∈ gs, (ds.filter (fun d => (dget known d).isNone)).length ≤ 1) →
    ∃ A, resolveAxes known gs (gs.map (gSize e)) = some A ∧
      ∀ nm ∈ gs.flatten, dget A nm = some (e nm) := by
  intro gs
  induction gs with
  | nil =>
    intro e _ _ _
    exact ⟨[], rfl, by simp⟩
  | cons ds gs ih =>
    intro e hag hpos hone
    obtain ⟨D, hD, hDval, hDnone⟩ := resolveGroup_exists known ds e
      (fun nm v hv hmem => hag nm v hv (by
        simp only [List.flatten_cons, List.mem_append]; exact Or.inl hmem))
      hpos (hone ds (by simp))
    obtain ⟨A', hA', hA'val⟩ := ih e
      (fun nm v hv hmem => hag nm v hv (by
        simp only [List.flatten_cons, List.mem_append]; exact Or.inr hmem))
      hpos (fun ds' hds' => hone ds' (by simp [hds']))
    refine ⟨D ++ A', ?_, ?_⟩
    · simp only [List.map_cons, resolveAxes, hD, hA']
    · intro nm hmem
      simp only [List.flatten_cons, List.mem_append] at hmem
      by_cases hin : nm ∈ ds
      · exact dget_append_left _ _ _ _ (hDval nm hin)
      · rw [dget_append_right _ _ _ (hDnone nm hin)]
        rcases hmem with h1 | h1
        · exact absurd h1 hin
        · exact hA'val nm h1

theorem runRe_congr {α : Type} [Inhabited α] (l r : List (List String))
    (e e' : String → Nat) (x : Tensor α)
    (hl : ∀ nm ∈ l.flatten, e nm = e' nm)
    (hr : ∀ nm ∈ r.flatten, e nm = e' nm) :
    runRe l r e x = runRe l r e' x := by
  have hml : l.flatten.map e = l.flatten.map e' := List.map_congr_left hl
  have hmr : r.flatten.map e = r.flatten.map e' := List.map_congr_left hr
  have hshape : r.map (gSize e) = r.map (gSize e') := by
    apply List.map_congr_left
    intro ds hds
    unfold gSize
    congr 1
    apply List.map_congr_left
    intro nm hnm
    exact hr nm (by rw [List.mem_flatten]; exact ⟨ds, hds, hnm⟩)
  unfold runRe
  simp only [Tensor.mk.injEq]
  refine ⟨by rw [hshape], ?_⟩
  apply List.ext_getElem
  · simp [hmr]
  · intro i h1 h2
    simp only [List.getElem_ofFn]
    unfold idxMap
    rw [hml, hmr]

theorem rearrange_core {α : Type} [Inhabited α] (l r : List (List String))
    (input_size : List (Option Nat)) (kwargs : Dict) (x1 y : Tensor α)
    (hnd : l.flatten.Nodup)
    (hperm : r.flatten.Perm l.flatten)
    (hone : ∀ ds ∈ r,
      (ds.filter (fun d => (dget (infer_dims l input_size kwargs) d).isNone)).length ≤ 1)
    (hpos : ∀ nm v, dget (infer_dims l input_size kwargs) nm = some v → 0 < v)
    (hwf : x1.data.length = x1.shape.prod)
    (hcons : ∀ (i n : Nat), input_size[i]? = some (some n) → x1.shape[i]? = some n)
    (hfwd : rearrangeApply l r kwargs x1 = some y) :
    rearrangeApply r l (infer_dims l input_size kwargs) y = some x1 := by
  unfold rearrangeApply at hfwd
  cases hres : resolveAxes kwargs l x1.shape with
  | none => rw [hres] at hfwd; exact absurd hfwd (by simp)
  | some A =>
    rw [hres] at hfwd
    injection hfwd with hfwd
    have hshape : x1.shape = l.map (gSize (extOf A)) :=
      resolveAxes_shape hnd hres
    have hag : ∀ nm v, dget (infer_dims l input_size kwargs) nm = some v →
        dget A nm = some v := by
      intro nm v h5
      rcases inferGo_agree l input_size x1.shape A [] nm v hnd hres hcons
          (fun hc _ => absurd hc (by simp [dget])) h5 with h | ⟨hc, _⟩
      · exact h
      · exact absurd hc (by simp [dget])
    have hag' : ∀ nm v, dget (infer_dims l input_size kwargs) nm = some v →
        nm ∈ r.flatten → extOf A nm = v := by
      intro nm v h5 _
      unfold extOf
      rw [hag nm v h5]
      rfl
    obtain ⟨A₂, hres₂, hA₂⟩ :=
      resolveAxes_exists (infer_dims l input_size kwargs) r (extOf A)
        hag' hpos hone
    have hyshape : y.shape = r.map (gSize (extOf A)) := by
      rw [← hfwd]
      rfl
    unfold rearrangeApply
    rw [hyshape, hres₂]
    have hcongr : runRe r l (extOf A₂) y = runRe r l (extOf A) y := by
      apply runRe_congr
      · intro nm hnm
        have := hA₂ nm hnm
        unfold extOf
        rw [this]
        rfl
      · intro nm hnm
        have hnm' : nm ∈ r.flatten := hperm.mem_iff.2 hnm
        have := hA₂ nm hnm'
        unfold extOf
        rw [this]
        rfl
    show some (runRe r l (extOf A₂) y) = some x1
    rw [hcongr, ← hfwd]
    rw [runRe_roundtrip l r (extOf A) x1 hnd hperm hshape hwf]

/-- C1: for every `Reshape` transform (including those built by `Matricize` /
`Tensorize`) with a valid equation (no duplicate axis names, identical axis
sets on both sides), a fully-resolvable shape specification (every inferred
extent positive, at most one unresolved member per output group — what a
valid constructed transform satisfies, and what einops requires to invert),
and an optional shift spec, and for every well-formed tensor `x` consistent
with the declared input size on which `forward` succeeds,
`inverse_forward (forward x) = x` exactly, bit for bit. -/
theorem reshape_roundtrip {α : Type} [Inhabited α] (T : Reshape) (x y : Tensor α)
    (hnd : T.left.flatten.Nodup)
    (hperm : T.right.flatten.Perm T.left.flatten)
    (hone : ∀ ds ∈ T.right,
      (ds.filter (fun d => (dget T.dim_lengths d).isNone)).length ≤ 1)
    (hpos : ∀ nm v, dget T.dim_lengths nm = some v → 0 < v)
    (hwf : x.data.length = x.shape.prod)
    (hcons : ∀ (i n : Nat), T.input_size[i]? = some (some n) →
      x.shape[i]? = some n)
    (hfwd : T.forward x = some y) :
    T.inverse_forward y = some x := by
  cases hs : T.shifts with
  | none =>
    unfold Reshape.forward at hfwd
    rw [hs] at hfwd
    have hfwd' : rearrangeApply T.left T.right T.kwargs x = some y := hfwd
    have hcore := rearrange_core T.left T.right T.input_size T.kwargs x y
      hnd hperm hone hpos hwf hcons hfwd'
    have hcore' : rearrangeApply T.right T.left T.dim_lengths y = some x := hcore
    unfold Reshape.inverse_forward
    rw [hcore', hs]
  | some s =>
    unfold Reshape.forward at hfwd
    rw [hs] at hfwd
    have hfwd' : rearrangeApply T.left T.right T.kwargs (rollT s T.dims x) =
        some y := hfwd
    have hwf1 : (rollT s T.dims x).data.length = (rollT s T.dims x).shape.prod := by
      rw [rollT_data_length, rollT_shape]
    have hcons1 : ∀ (i n : Nat), T.input_size[i]? = some (some n) →
        (rollT s T.dims x).shape[i]? = some n := by
      intro i n hi
      rw [rollT_shape]
      exact hcons i n hi
    have hcore := rearrange_core T.left T.right T.input_size T.kwargs
      (rollT s T.dims x) y hnd hperm hone hpos hwf1 hcons1 hfwd'
    have hcore' : rearrangeApply T.right T.left T.dim_lengths y =
        some (rollT s T.dims x) := hcore
    unfold Reshape.inverse_forward
    rw [hcore', hs]
    show some (rollT (s.map Neg.neg) T.dims (rollT s T.dims x)) = some x
    rw [rollT_cancel s T.dims x hwf]

theorem dget_pos_of_all_pos (A : Dict) (h : ∀ p ∈ A, 0 < p.2) :
    ∀ nm v, dget A nm = some v → 0 < v := by
  induction A with
  | nil => intro nm v hc; simp [dget] at hc
  | cons p t ih =>
    intro nm v hv
    obtain ⟨k, w⟩ := p
    unfold dget at hv
    split at hv
    · injection hv with hv
      subst hv
      exact h (k, w) (by simp)
    · exact ih (fun q hq => h q (by simp [hq])) nm v hv

theorem consistent_of_map_some (sz : List (Option Nat)) (sh : List Nat)
    (h : sz = sh.map some) :
    ∀ (i n : Nat), sz[i]? = some (some n) → sh[i]? = some n := by
  subst h
  intro i n h2
  rw [List.getElem?_map] at h2
  cases hs : sh[i]? with
  | none => rw [hs] at h2; simp at h2
  | some m =>
    rw [hs] at h2
    simp at h2
    rw [h2]

/-- Concrete transform for exercising the round trip: equation
`a (b c) -> (c a) b` on input size `(2, 6)` with hint `b=3` and a cyclic
shift of 1 along axis 0. -/
def c1T : Reshape :=
  ⟨[["a"], ["b", "c"]], [["c", "a"], ["b"]], [some 2, some 6], [("b", 3)],
    some [1], [0]⟩

def c1x : Tensor Int :=
  ⟨[2, 6], [0, 1, 2, 3, 4, 5, 6, 7, 8, 9, 10, 11]⟩

def c1y : Tensor Int :=
  ⟨[4, 3], [6, 8, 10, 0, 2, 4, 7, 9, 11, 1, 3, 5]⟩

/-- Witness for C1: the round-trip theorem applied to the concrete transform
`c1T` and tensor `c1x`, every hypothesis discharged by evaluation. -/
theorem reshape_roundtrip_witness :
    Reshape.forward c1T c1x = some c1y ∧
      Reshape.inverse_forward c1T c1y = some c1x := by
  refine ⟨by decide, ?_⟩
  exact reshape_roundtrip c1T c1x c1y (by decide) (by decide) (by decide)
    (dget_pos_of_all_pos _ (by decide)) (by decide)
    (consistent_of_map_some _ _ (by decide)) (by decide)

/-- Error taxonomy of construction and runtime failures: malformed equation
(einops `EinopsError` at pattern parse/validation time), configuration error
(failed constructor assert), einops `EinopsError("Could not infer sizes
...")` raised while preparing a `Rearrange` recipe whose pattern has a
composite group with two or more axes of unsupplied length, shape mismatch
(runtime failure, modelled by `none` results). -/
inductive ErrM where
  | malformedEquation
  | configuration
  | couldNotInferSizes
  | shapeMismatch
deriving DecidableEq

/-- Character-level tokenizer for one side of an einops pattern: bare
identifiers become singleton groups, parenthesized space-separated lists
become merge groups; unbalanced or nested parentheses fail (einops
`ParsedExpression` behaviour used by `Rearrange`). Arguments: remaining
input, group currently open (if inside parentheses), identifier characters
collected so far, completed groups. -/
def pg : List Char → Option (List String) → List Char → List (List String) →
    Option (List (List String))
  | [], cur, word, acc =>
      (match cur with
      | some _ => none
      | none =>
          if word.isEmpty then some acc
          else some (acc ++ [[String.mk word]]))
  | c :: cs, cur, word, acc =>
      if c = '(' then
        (match cur with
        | some _ => none
        | none =>
            if word.isEmpty then pg cs (some []) [] acc
            else pg cs (some []) [] (acc ++ [[String.mk word]]))
      else if c = ')' then
        (match cur with
        | none => none
        | some g =>
            if word.isEmpty then pg cs none [] (acc ++ [g])
            else pg cs none [] (acc ++ [g ++ [String.mk word]]))
      else if c = ' ' then
        (match cur with
        | some g =>
            if word.isEmpty then pg cs (some g) [] acc
            else pg cs (some (g ++ [String.mk word])) [] acc
        | none =>
            if word.isEmpty then pg cs none [] acc
            else pg cs none [] (acc ++ [[String.mk word]]))
      else
        pg cs cur (word ++ [c]) acc

/-- Split a character list at every occurrence of the arrow `->`
(`equation.split("->")` in line 89). -/
def splitArr : List Char → List (List Char)
  | [] => [[]]
  | '-' :: '>' :: rest => [] :: splitArr rest
  | c :: rest =>
      match splitArr rest with
      | [] => [[c]]
      | h :: t => (c :: h) :: t

/-- Equation validity enforced by einops at `Rearrange` construction: no
duplicate axis name on either side, and identical axis-name sets on the two
sides. -/
def eqValid (l r : List (List String)) : Bool :=
  decide l.flatten.Nodup && decide r.flatten.Nodup &&
    decide (r.flatten.Perm l.flatten)

/-- einops also rejects, at construction, axis-length keyword arguments that
name an axis absent from the pattern. -/
def kwargsKeysOk (kw : Dict) (l : List (List String)) : Bool :=
  kw.all (fun p => l.flatten.contains p.1)

/-- Split the equation at `->` (line 89) and parse both sides into axis
groups, as einops' `ParsedExpression` does inside `Rearrange`. -/
def parseEq (equation : String) :
    Option (List (List String) × List (List String)) :=
  match splitArr equation.data with
  | [lcs, rcs] =>
      match pg lcs none [] [], pg rcs none [] [] with
      | some l, some r => some (l, r)
      | _, _ => none
  | _ => none

/-- einops' construction-time size-inference check: while preparing a
`Rearrange` recipe, every composite group of the pattern must have at most
one axis whose length is not supplied in the layer's `axes_lengths`
argument, otherwise `EinopsError("Could not infer sizes for ...")` is
raised at `__init__` (a bare axis forms a singleton group, for which the
bound holds trivially). -/
def groupsResolvable (known : Dict) (gs : List (List String)) : Bool :=
  gs.all (fun ds =>
    decide ((ds.filter (fun d => (dget known d).isNone)).length ≤ 1))

/-- Model of `Reshape.__init__` (lines 83-103) for a non-`None` equation:
`Rearrange(equation, **kwargs)` at line 92 eagerly validates the pattern
(parse, duplicate/mismatched axis names, unknown keyword axes) and checks
that every left-side group has at most one axis absent from `kwargs`;
`infer_dims` runs at line 94; `Rearrange(equation_inv, **self.dim_lengths)`
at line 98 then checks that every right-side group (the input side of the
inverse pattern) has at most one axis absent from the inferred
`dim_lengths`.  All failures happen here, at construction, before any
tensor is seen. -/
def reshapeInit (equation : String) (input_size : List (Option Nat))
    (kwargs : Dict) (shifts : Option (List Int)) (dims : List Nat) :
    Except ErrM Reshape :=
  match parseEq equation with
  | some (l, r) =>
      if eqValid l r && kwargsKeysOk kwargs l then
        if groupsResolvable kwargs l &&
            groupsResolvable (infer_dims l input_size kwargs) r then
          Except.ok ⟨l, r, input_size, kwargs, shifts, dims⟩
        else Except.error ErrM.couldNotInferSizes
      else Except.error ErrM.malformedEquation
  | none => Except.error ErrM.malformedEquation

/-- C9: the equation `"(a b -> a b"` (unbalanced parenthesis) is rejected
with a malformed-equation error, and `"a b -> a c"` (left/right axis-name
set mismatch) is likewise rejected; both failures happen inside
construction (`reshapeInit`), which receives no tensor — no tensor is
processed. -/
theorem malformed_equation_rejected :
    reshapeInit "(a b -> a b" [some 2, some 2] [] none [] =
        Except.error ErrM.malformedEquation ∧
      reshapeInit "a b -> a c" [some 2, some 2] [] none [] =
        Except.error ErrM.malformedEquation := by
  constructor <;> rfl

theorem reshapeInit_of_parse (equation : String)
    (l r : List (List String)) (sz : List (Option Nat)) (kw : Dict)
    (sh : Option (List Int)) (dm : List Nat)
    (hp : parseEq equation = some (l, r)) (hv : eqValid l r = true)
    (hk : kwargsKeysOk kw l = true)
    (hgl : groupsResolvable kw l = true)
    (hgr : groupsResolvable (infer_dims l sz kw) r = true) :
    reshapeInit equation sz kw sh dm = Except.ok ⟨l, r, sz, kw, sh, dm⟩ := by
  unfold reshapeInit
  rw [hp]
  show (if eqValid l r && kwargsKeysOk kw l then
      if groupsResolvable kw l && groupsResolvable (infer_dims l sz kw) r then
        Except.ok (⟨l, r, sz, kw, sh, dm⟩ : Reshape)
      else Except.error ErrM.couldNotInferSizes
    else Except.error ErrM.malformedEquation) = _
  rw [hv, hk, hgl, hgr]
  rfl

theorem reshapeInit_of_parse_invalid (equation : String)
    (l r : List (List String)) (sz : List (Option Nat)) (kw : Dict)
    (sh : Option (List Int)) (dm : List Nat)
    (hp : parseEq equation = some (l, r)) (hv : eqValid l r = false) :
    reshapeInit equation sz kw sh dm = Except.error ErrM.malformedEquation := by
  unfold reshapeInit
  rw [hp]
  show (if eqValid l r && kwargsKeysOk kw l then
      if groupsResolvable kw l && groupsResolvable (infer_dims l sz kw) r then
        Except.ok (⟨l, r, sz, kw, sh, dm⟩ : Reshape)
      else Except.error ErrM.couldNotInferSizes
    else Except.error ErrM.malformedEquation) = _
  rw [hv]
  rfl

theorem reshapeInit_ne_configuration (equation : String)
    (sz : List (Option Nat)) (kw : Dict) (sh : Option (List Int))
    (dm : List Nat) :
    reshapeInit equation sz kw sh dm ≠ Except.error ErrM.configuration := by
  intro hc
  unfold reshapeInit at hc
  split at hc
  · split at hc
    · split at hc
      · exact Except.noConfusion hc
      · exact ErrM.noConfusion (Except.error.inj hc)
    · exact ErrM.noConfusion (Except.error.inj hc)
  · exact ErrM.noConfusion (Except.error.inj hc)

/-- Scalar-or-per-axis constructor argument, as accepted for `grid_size`,
`patch_size` and `shifts`. -/
abbrev ScalarOrSeq := Int ⊕ List Int

/-- Model of `torch.nn.modules.utils._ntuple(S)` applied to an optional
argument: `None` broadcasts to a tuple of `None`s, a scalar is repeated `S`
times, a sequence is taken as is. -/
def ntupleOpt (S : Nat) : Option ScalarOrSeq → List (Option Int)
  | none => List.replicate S none
  | some (Sum.inl v) => List.replicate S (some v)
  | some (Sum.inr l) => l.map some

/-- `_ntuple(S)` on a present shifts argument. -/
def ntupleInt (S : Nat) : ScalarOrSeq → List Int
  | Sum.inl v => List.replicate S v
  | Sum.inr l => l

/-- The clamp `max(value, 1)` applied to every supplied axis-extent hint in
`Matricize.__init__` (lines 206-217) and `Tensorize.__init__`
(lines 324-335). -/
def clampPos (v : Int) : Nat := (max v 1).toNat

/-- Entries contributed by one scalar-or-sequence argument: for each present
per-axis value `g` at position `j`, the binding `tag{j} -> max(g, 1)`. -/
def gpEntries (tag : String) : Nat → List (Option Int) → Dict
  | _, [] => []
  | j, none :: rest => gpEntries tag (j + 1) rest
  | j, some v :: rest => (tag ++ toString j, clampPos v) :: gpEntries tag (j + 1) rest

/-- The `dims_lengths` dict built by `Matricize.__init__` lines 204-217 —
`Tensorize.__init__` lines 322-335 are textually identical. -/
def buildDims (num_heads head_dim : Option Int)
    (grid_size patch_size : Option ScalarOrSeq) (S : Nat) : Dict :=
  (match num_heads with
    | some v => [("h", clampPos v)]
    | none => []) ++
  (match head_dim with
    | some v => [("d", clampPos v)]
    | none => []) ++
  gpEntries "g" 0 (ntupleOpt S grid_size) ++
  gpEntries "p" 0 (ntupleOpt S patch_size)

def gN (i : Nat) : String := "g" ++ toString i

def pN (i : Nat) : String := "p" ++ toString i

def joinSp (l : List String) : String := String.intercalate " " l

/-- Left side built by both constructors (line 198 / line 316):
`b (h d) (g0 p0) (g1 p1) ...`. -/
def matricizeLeft (S : Nat) : String :=
  "b (h d) " ++ joinSp ((List.range S).map (fun i => "(" ++ gN i ++ " " ++ pN i ++ ")"))

/-- Right side built by `Matricize.__init__` lines 199-201: starts from
`"(b h) "` and appends the merged grid group, `d`, and the merged patch
group with `+=`. -/
def matricizeRight (S : Nat) : String :=
  "(b h) " ++ ("(" ++ joinSp ((List.range S).map gN) ++ ") ") ++
    ("d (" ++ joinSp ((List.range S).map pN) ++ ")")

/-- Right side built by `Tensorize.__init__` lines 317-319 as written: line
317 assigns `right = "(b h) "` but line 318 assigns (`right = ...`, not
`+=`), overwriting it, so the `(b h)` group is silently dropped. -/
def tensorizeRight (S : Nat) : String :=
  ("(" ++ joinSp ((List.range S).map gN) ++ ") ") ++
    ("d " ++ joinSp ((List.range S).map pN))

/-- Modelled from the spec: the right side `Tensorize` is documented to
build (docstring line 292 and spec section 4.3) — the batch/heads group
kept, grid axes merged, `headDim` alone, each patch axis a separate
trailing axis; i.e. line 318 with `+=` as in `Matricize`. -/
def tensorizeRightIntended (S : Nat) : String :=
  "(b h) " ++ tensorizeRight S

/-- Model of `Matricize.__init__` (lines 176-232): the two mutually
exclusive-pair asserts, equation construction, hint clamping, optional
shift broadcast, then delegation to `Reshape`. -/
def Matricize (input_size : List (Option Nat)) (num_heads head_dim : Option Int)
    (grid_size patch_size : Option ScalarOrSeq)
    (shifts : Option ScalarOrSeq) : Except ErrM Reshape :=
  if num_heads = none ∧ head_dim = none then Except.error ErrM.configuration
  else if grid_size = none ∧ patch_size = none then Except.error ErrM.configuration
  else
    reshapeInit
      (matricizeLeft (input_size.length - 2) ++ " -> " ++
        matricizeRight (input_size.length - 2))
      input_size
      (buildDims num_heads head_dim grid_size patch_size (input_size.length - 2))
      (match shifts with
        | some sh => some (ntupleInt (input_size.length - 2) sh)
        | none => none)
      (match shifts with
        | some _ => (List.range (input_size.length - 2)).map (fun j => j + 2)
        | none => [])

/-- Model of `Tensorize.__init__` (lines 294-350): identical to `Matricize`
except for the (bugged) right side of the equation. -/
def Tensorize (input_size : List (Option Nat)) (num_heads head_dim : Option Int)
    (grid_size patch_size : Option ScalarOrSeq)
    (shifts : Option ScalarOrSeq) : Except ErrM Reshape :=
  if num_heads = none ∧ head_dim = none then Except.error ErrM.configuration
  else if grid_size = none ∧ patch_size = none then Except.error ErrM.configuration
  else
    reshapeInit
      (matricizeLeft (input_size.length - 2) ++ " -> " ++
        tensorizeRight (input_size.length - 2))
      input_size
      (buildDims num_heads head_dim grid_size patch_size (input_size.length - 2))
      (match shifts with
        | some sh => some (ntupleInt (input_size.length - 2) sh)
        | none => none)
      (match shifts with
        | some _ => (List.range (input_size.length - 2)).map (fun j => j + 2)
        | none => [])

instance exceptDecEq {ε α : Type} [DecidableEq ε] [DecidableEq α] :
    DecidableEq (Except ε α) := fun x y =>
  match x, y with
  | .ok a, .ok b =>
      if h : a = b then isTrue (by rw [h])
      else isFalse (fun hc => h (Except.ok.inj hc))
  | .error e, .error f =>
      if h : e = f then isTrue (by rw [h])
      else isFalse (fun hc => h (Except.error.inj hc))
  | .ok _, .error _ => isFalse (fun hc => Except.noConfusion hc)
  | .error _, .ok _ => isFalse (fun hc => Except.noConfusion hc)

/-- C2: with input shape `(1, 4, 8, 8)`, `numHeads=2, headDim=2, gridSize=2,
patchSize=4`, no shift: `Matricize` constructs with output shape
`(2, 4, 2, 16)` as claimed; but `Tensorize` does not construct — line 318
reassigns `right` instead of appending, so the built right side is
`"(g0 g1) d p0 p1"` with the `(b h)` group dropped, the two sides of the
equation have different axis sets, and construction fails with the
malformed-equation error (einops raises inside `Rearrange.__init__`),
contradicting the claim and `Tensorize`'s own docstring (line 292).  With
the documented right side (the `+=` variant) the output size would be
`(2, 4, 2, 4, 4)` exactly as the claim states. -/
theorem tensorize_right_overwrite_bug :
    ((Matricize [some 1, some 4, some 8, some 8] (some 2) (some 2)
        (some (Sum.inl 2)) (some (Sum.inl 4)) none).map Reshape.output_size =
      Except.ok [some 2, some 4, some 2, some 16]) ∧
    (Tensorize [some 1, some 4, some 8, some 8] (some 2) (some 2)
        (some (Sum.inl 2)) (some (Sum.inl 4)) none =
      Except.error ErrM.malformedEquation) ∧
    (tensorizeRight 2 = "(g0 g1) d p0 p1") ∧
    (tensorizeRightIntended 2 = "(b h) (g0 g1) d p0 p1") ∧
    (pg (tensorizeRightIntended 2).data none [] [] =
      some [["b", "h"], ["g0", "g1"], ["d"], ["p0"], ["p1"]]) ∧
    (compute_size [["b", "h"], ["g0", "g1"], ["d"], ["p0"], ["p1"]]
        (infer_dims [["b"], ["h", "d"], ["g0", "p0"], ["g1", "p1"]]
          [some 1, some 4, some 8, some 8]
          (buildDims (some 2) (some 2) (some (Sum.inl 2)) (some (Sum.inl 4)) 2)) =
      [some 2, some 4, some 2, some 4, some 4]) := by
  refine ⟨by decide, by decide, by decide, by decide, by decide, by decide⟩

/-- Parsed left groups of the constructor equation at spatial rank 2. -/
def mLeft2 : List (List String) := [["b"], ["h", "d"], ["g0", "p0"], ["g1", "p1"]]

/-- Parsed right groups of the `Matricize` equation at spatial rank 2. -/
def mRight2 : List (List String) := [["b", "h"], ["g0", "g1"], ["d"], ["p0", "p1"]]

/-- Parsed right groups of the `Tensorize` equation as actually built at
spatial rank 2 (the `(b h)` group lost). -/
def tRight2 : List (List String) := [["g0", "g1"], ["d"], ["p0"], ["p1"]]

theorem matricize_config_left (sz : List (Option Nat))
    (gp pp sh : Option ScalarOrSeq) :
    Matricize sz none none gp pp sh = Except.error ErrM.configuration := by
  unfold Matricize
  rw [if_pos ⟨rfl, rfl⟩]

theorem matricize_config_right (sz : List (Option Nat)) (nh hd : Option Int)
    (sh : Option ScalarOrSeq) :
    Matricize sz nh hd none none sh = Except.error ErrM.configuration := by
  unfold Matricize
  by_cases h : nh = none ∧ hd = none
  · rw [if_pos h]
  · rw [if_neg h, if_pos ⟨rfl, rfl⟩]

theorem tensorize_config_left (sz : List (Option Nat))
    (gp pp sh : Option ScalarOrSeq) :
    Tensorize sz none none gp pp sh = Except.error ErrM.configuration := by
  unfold Tensorize
  rw [if_pos ⟨rfl, rfl⟩]

theorem tensorize_config_right (sz : List (Option Nat)) (nh hd : Option Int)
    (sh : Option ScalarOrSeq) :
    Tensorize sz nh hd none none sh = Except.error ErrM.configuration := by
  unfold Tensorize
  by_cases h : nh = none ∧ hd = none
  · rw [if_pos h]
  · rw [if_neg h, if_pos ⟨rfl, rfl⟩]

theorem tensorize_malformed2 (sz : List (Option Nat)) (hlen : sz.length = 4)
    (nh hd gp pp : Option Int)
    (h1 : ¬(nh = none ∧ hd = none)) (h2 : ¬(gp = none ∧ pp = none)) :
    Tensorize sz nh hd (gp.map Sum.inl) (pp.map Sum.inl) none =
      Except.error ErrM.malformedEquation := by
  unfold Tensorize
  rw [if_neg h1,
    if_neg (fun hc => h2 ⟨Option.map_eq_none'.1 hc.1, Option.map_eq_none'.1 hc.2⟩),
    hlen]
  exact reshapeInit_of_parse_invalid _ mLeft2 tRight2 sz _ none []
    (by decide) (by decide)

/-- C8 counterexample: supplying BOTH members of each pair (`numHeads=2` and
`headDim=2`, `gridSize=2` and `patchSize=4`) does not fail — `Matricize`
constructs successfully, because the asserts (lines 186-193) only reject
the case where both members of a pair are `None`. -/
theorem both_supplied_accepted :
    (Matricize [some 1, some 4, some 8, some 8] (some 2) (some 2)
      (some (Sum.inl 2)) (some (Sum.inl 4)) none).isOk = true := by decide

/-- Partially-unknown input sizes can defeat the line-98 check even though
the asserts pass: with input shape `(None, None, 8, 8)`, `headDim=2`,
`gridSize=2`, `patchSize=2`, the inferred `dim_lengths` lack `b` and `h`,
so the `(b h)` group on the input side of the inverse `Rearrange` has two
axes of unknown length and einops raises `Could not infer sizes` for the
set of axes `b, h` at construction — not a `ConfigurationError`. -/
theorem matricize_underdetermined_sizes :
    Matricize [none, none, some 8, some 8] none (some 2)
        (some (Sum.inl 2)) (some (Sum.inl 2)) none =
      Except.error ErrM.couldNotInferSizes := by decide

/-- C8 amended: the asserts (lines 186-193, 304-311) implement an
at-least-one contract, not exactly-one: for every input size, hint, and
shift argument, `Matricize` and `Tensorize` construction fails with a
`ConfigurationError` precisely when both of `{numHeads, headDim}` are
omitted or both of `{gridSize, patchSize}` are omitted.  In particular,
supplying both members of a pair passes the asserts and never yields a
`ConfigurationError`; whether construction then succeeds is decided by the
later einops `Rearrange` checks of lines 92/98 (`Matricize` constructs
when the equation's extents are resolvable, as in the C2 scenario, while
`Tensorize` always fails there with the malformed-equation bug of C2). -/
theorem pair_asserts_amended :
    ∀ (sz : List (Option Nat)) (nh hd : Option Int)
      (gp pp sh : Option ScalarOrSeq),
    (Matricize sz nh hd gp pp sh = Except.error ErrM.configuration ↔
      (nh = none ∧ hd = none) ∨ (gp = none ∧ pp = none)) ∧
    (Tensorize sz nh hd gp pp sh = Except.error ErrM.configuration ↔
      (nh = none ∧ hd = none) ∨ (gp = none ∧ pp = none)) := by
  intro sz nh hd gp pp sh
  constructor
  · constructor
    · intro herr
      by_contra hc
      unfold Matricize at herr
      rw [if_neg (fun hand => hc (Or.inl hand)),
        if_neg (fun hand => hc (Or.inr hand))] at herr
      exact reshapeInit_ne_configuration _ _ _ _ _ herr
    · rintro (⟨ha, hb⟩ | ⟨ha, hb⟩)
      · subst ha; subst hb
        exact matricize_config_left sz gp pp sh
      · subst ha; subst hb
        exact matricize_config_right sz nh hd sh
  · constructor
    · intro herr
      by_contra hc
      unfold Tensorize at herr
      rw [if_neg (fun hand => hc (Or.inl hand)),
        if_neg (fun hand => hc (Or.inr hand))] at herr
      exact reshapeInit_ne_configuration _ _ _ _ _ herr
    · rintro (⟨ha, hb⟩ | ⟨ha, hb⟩)
      · subst ha; subst hb
        exact tensorize_config_left sz gp pp sh
      · subst ha; subst hb
        exact tensorize_config_right sz nh hd sh

/-- Witness for the amended C8, at concrete arguments: with both members of
both pairs supplied the asserts pass and no configuration error is raised,
and with all four hints omitted construction fails with one. -/
theorem pair_asserts_amended_witness :
    (Matricize [some 1, some 4, some 8, some 8] (some 2) (some 2)
        (some (Sum.inl 2)) (some (Sum.inl 4)) none ≠
      Except.error ErrM.configuration) ∧
    (Tensorize [some 1, some 4, some 8, some 8] none none none none none =
      Except.error ErrM.configuration) :=
  ⟨fun hc =>
    absurd ((pair_asserts_amended [some 1, some 4, some 8, some 8]
      (some 2) (some 2) (some (Sum.inl 2)) (some (Sum.inl 4)) none).1.1 hc)
      (by decide),
   (pair_asserts_amended [some 1, some 4, some 8, some 8]
      none none none none none).2.2 (Or.inl ⟨rfl, rfl⟩)⟩

theorem clampPos_nonpos {v : Int} (hv : v ≤ 0) : clampPos v = 1 := by
  unfold clampPos
  rw [max_eq_right (by omega : v ≤ 1)]
  rfl

theorem clampPos_one : clampPos 1 = 1 := rfl

theorem gpEntries_clamp (tag : String) (v : Int) (hv : v ≤ 0) :
    ∀ (j : Nat) (l1 : List (Option Int)) (l2 : List (Option Int)),
    gpEntries tag j (l1 ++ some v :: l2) = gpEntries tag j (l1 ++ some 1 :: l2) := by
  intro j l1
  induction l1 generalizing j with
  | nil =>
    intro l2
    show (tag ++ toString j, clampPos v) :: gpEntries tag (j + 1) l2 =
      (tag ++ toString j, clampPos 1) :: gpEntries tag (j + 1) l2
    rw [clampPos_nonpos hv, clampPos_one]
  | cons o l1 ih =>
    intro l2
    cases o with
    | none =>
      show gpEntries tag (j + 1) (l1 ++ some v :: l2) =
        gpEntries tag (j + 1) (l1 ++ some 1 :: l2)
      exact ih (j + 1) l2
    | some w =>
      show (tag ++ toString j, clampPos w) ::
          gpEntries tag (j + 1) (l1 ++ some v :: l2) =
        (tag ++ toString j, clampPos w) ::
          gpEntries tag (j + 1) (l1 ++ some 1 :: l2)
      rw [ih (j + 1) l2]

theorem buildDims_nh_clamp (v : Int) (hv : v ≤ 0) (hd : Option Int)
    (gp pp : Option ScalarOrSeq) (S : Nat) :
    buildDims (some v) hd gp pp S = buildDims (some 1) hd gp pp S := by
  show ([("h", clampPos v)] ++ _ : Dict) = ([("h", clampPos 1)] ++ _)
  rw [clampPos_nonpos hv, clampPos_one]

theorem buildDims_hd_clamp (v : Int) (hv : v ≤ 0) (nh : Option Int)
    (gp pp : Option ScalarOrSeq) (S : Nat) :
    buildDims nh (some v) gp pp S = buildDims nh (some 1) gp pp S := by
  unfold buildDims
  congr 3
  show ([("d", clampPos v)] : Dict) = [("d", clampPos 1)]
  rw [clampPos_nonpos hv, clampPos_one]

theorem buildDims_grid_clamp (v : Int) (hv : v ≤ 0) (nh hd : Option Int)
    (pp : Option ScalarOrSeq) (S : Nat) (l1 l2 : List Int) :
    buildDims nh hd (some (Sum.inr (l1 ++ v :: l2))) pp S =
      buildDims nh hd (some (Sum.inr (l1 ++ 1 :: l2))) pp S := by
  unfold buildDims
  congr 2
  show gpEntries "g" 0 ((l1 ++ v :: l2).map some) =
    gpEntries "g" 0 ((l1 ++ 1 :: l2).map some)
  simp only [List.map_append, List.map_cons]
  exact gpEntries_clamp "g" v hv 0 (l1.map some) (l2.map some)

theorem buildDims_patch_clamp (v : Int) (hv : v ≤ 0) (nh hd : Option Int)
    (gp : Option ScalarOrSeq) (S : Nat) (l1 l2 : List Int) :
    buildDims nh hd gp (some (Sum.inr (l1 ++ v :: l2))) S =
      buildDims nh hd gp (some (Sum.inr (l1 ++ 1 :: l2))) S := by
  unfold buildDims
  congr 1
  show gpEntries "p" 0 ((l1 ++ v :: l2).map some) =
    gpEntries "p" 0 ((l1 ++ 1 :: l2).map some)
  simp only [List.map_append, List.map_cons]
  exact gpEntries_clamp "p" v hv 0 (l1.map some) (l2.map some)

theorem matricize_nh_clamp (v : Int) (hv : v ≤ 0) (sz : List (Option Nat))
    (hd : Option Int) (gp pp sh : Option ScalarOrSeq) :
    Matricize sz (some v) hd gp pp sh = Matricize sz (some 1) hd gp pp sh := by
  unfold Matricize
  rw [if_neg (show ¬((some v : Option Int) = none ∧ hd = none) by simp),
    if_neg (show ¬((some 1 : Option Int) = none ∧ hd = none) by simp)]
  by_cases hg : gp = none ∧ pp = none
  · rw [if_pos hg, if_pos hg]
  · rw [if_neg hg, if_neg hg, buildDims_nh_clamp v hv hd gp pp _]

theorem tensorize_nh_clamp (v : Int) (hv : v ≤ 0) (sz : List (Option Nat))
    (hd : Option Int) (gp pp sh : Option ScalarOrSeq) :
    Tensorize sz (some v) hd gp pp sh = Tensorize sz (some 1) hd gp pp sh := by
  unfold Tensorize
  rw [if_neg (show ¬((some v : Option Int) = none ∧ hd = none) by simp),
    if_neg (show ¬((some 1 : Option Int) = none ∧ hd = none) by simp)]
  by_cases hg : gp = none ∧ pp = none
  · rw [if_pos hg, if_pos hg]
  · rw [if_neg hg, if_neg hg, buildDims_nh_clamp v hv hd gp pp _]

theorem matricize_hd_clamp (v : Int) (hv : v ≤ 0) (sz : List (Option Nat))
    (nh : Option Int) (gp pp sh : Option ScalarOrSeq) :
    Matricize sz nh (some v) gp pp sh = Matricize sz nh (some 1) gp pp sh := by
  unfold Matricize
  rw [if_neg (show ¬(nh = none ∧ (some v : Option Int) = none) by simp),
    if_neg (show ¬(nh = none ∧ (some 1 : Option Int) = none) by simp)]
  by_cases hg : gp = none ∧ pp = none
  · rw [if_pos hg, if_pos hg]
  · rw [if_neg hg, if_neg hg, buildDims_hd_clamp v hv nh gp pp _]

theorem tensorize_hd_clamp (v : Int) (hv : v ≤ 0) (sz : List (Option Nat))
    (nh : Option Int) (gp pp sh : Option ScalarOrSeq) :
    Tensorize sz nh (some v) gp pp sh = Tensorize sz nh (some 1) gp pp sh := by
  unfold Tensorize
  rw [if_neg (show ¬(nh = none ∧ (some v : Option Int) = none) by simp),
    if_neg (show ¬(nh = none ∧ (some 1 : Option Int) = none) by simp)]
  by_cases hg : gp = none ∧ pp = none
  · rw [if_pos hg, if_pos hg]
  · rw [if_neg hg, if_neg hg, buildDims_hd_clamp v hv nh gp pp _]

theorem matricize_grid_clamp (v : Int) (hv : v ≤ 0) (sz : List (Option Nat))
    (nh hd : Option Int) (pp sh : Option ScalarOrSeq) (l1 l2 : List Int) :
    Matricize sz nh hd (some (Sum.inr (l1 ++ v :: l2))) pp sh =
      Matricize sz nh hd (some (Sum.inr (l1 ++ 1 :: l2))) pp sh := by
  unfold Matricize
  by_cases hh : nh = none ∧ hd = none
  · rw [if_pos hh, if_pos hh]
  · rw [if_neg hh, if_neg hh,
      if_neg (show ¬(some (Sum.inr (l1 ++ v :: l2)) = none ∧ pp = none) by simp),
      if_neg (show ¬(some (Sum.inr (l1 ++ 1 :: l2)) = none ∧ pp = none) by simp),
      buildDims_grid_clamp v hv nh hd pp _ l1 l2]

theorem tensorize_grid_clamp (v : Int) (hv : v ≤ 0) (sz : List (Option Nat))
    (nh hd : Option Int) (pp sh : Option ScalarOrSeq) (l1 l2 : List Int) :
    Tensorize sz nh hd (some (Sum.inr (l1 ++ v :: l2))) pp sh =
      Tensorize sz nh hd (some (Sum.inr (l1 ++ 1 :: l2))) pp sh := by
  unfold Tensorize
  by_cases hh : nh = none ∧ hd = none
  · rw [if_pos hh, if_pos hh]
  · rw [if_neg hh, if_neg hh,
      if_neg (show ¬(some (Sum.inr (l1 ++ v :: l2)) = none ∧ pp = none) by simp),
      if_neg (show ¬(some (Sum.inr (l1 ++ 1 :: l2)) = none ∧ pp = none) by simp),
      buildDims_grid_clamp v hv nh hd pp _ l1 l2]

theorem matricize_patch_clamp (v : Int) (hv : v ≤ 0) (sz : List (Option Nat))
    (nh hd : Option Int) (gp sh : Option ScalarOrSeq) (l1 l2 : List Int) :
    Matricize sz nh hd gp (some (Sum.inr (l1 ++ v :: l2))) sh =
      Matricize sz nh hd gp (some (Sum.inr (l1 ++ 1 :: l2))) sh := by
  unfold Matricize
  by_cases hh : nh = none ∧ hd = none
  · rw [if_pos hh, if_pos hh]
  · rw [if_neg hh, if_neg hh,
      if_neg (show ¬(gp = none ∧ some (Sum.inr (l1 ++ v :: l2)) = none) by simp),
      if_neg (show ¬(gp = none ∧ some (Sum.inr (l1 ++ 1 :: l2)) = none) by simp),
      buildDims_patch_clamp v hv nh hd gp _ l1 l2]

theorem tensorize_patch_clamp (v : Int) (hv : v ≤ 0) (sz : List (Option Nat))
    (nh hd : Option Int) (gp sh : Option ScalarOrSeq) (l1 l2 : List Int) :
    Tensorize sz nh hd gp (some (Sum.inr (l1 ++ v :: l2))) sh =
      Tensorize sz nh hd gp (some (Sum.inr (l1 ++ 1 :: l2))) sh := by
  unfold Tensorize
  by_cases hh : nh = none ∧ hd = none
  · rw [if_pos hh, if_pos hh]
  · rw [if_neg hh, if_neg hh,
      if_neg (show ¬(gp = none ∧ some (Sum.inr (l1 ++ v :: l2)) = none) by simp),
      if_neg (show ¬(gp = none ∧ some (Sum.inr (l1 ++ 1 :: l2)) = none) by simp),
      buildDims_patch_clamp v hv nh hd gp _ l1 l2]

/-- C10: every supplied non-positive hint — `numHeads`, `headDim`, or any
per-axis entry of `gridSize`/`patchSize` — is silently clamped to 1 by
`max(value, 1)` (lines 204-217 and 322-335) instead of being rejected: the
constructor behaves exactly as if the value 1 had been supplied; e.g.
`numHeads=0` behaves exactly like `numHeads=1`. -/
theorem nonpositive_hints_clamped :
    (∀ (v : Int), v ≤ 0 → ∀ (sz : List (Option Nat)) (hd : Option Int)
      (gp pp sh : Option ScalarOrSeq),
      Matricize sz (some v) hd gp pp sh = Matricize sz (some 1) hd gp pp sh ∧
      Tensorize sz (some v) hd gp pp sh = Tensorize sz (some 1) hd gp pp sh) ∧
    (∀ (v : Int), v ≤ 0 → ∀ (sz : List (Option Nat)) (nh : Option Int)
      (gp pp sh : Option ScalarOrSeq),
      Matricize sz nh (some v) gp pp sh = Matricize sz nh (some 1) gp pp sh ∧
      Tensorize sz nh (some v) gp pp sh = Tensorize sz nh (some 1) gp pp sh) ∧
    (∀ (v : Int), v ≤ 0 → ∀ (sz : List (Option Nat)) (nh hd : Option Int)
      (pp sh : Option ScalarOrSeq) (l1 l2 : List Int),
      Matricize sz nh hd (some (Sum.inr (l1 ++ v :: l2))) pp sh =
        Matricize sz nh hd (some (Sum.inr (l1 ++ 1 :: l2))) pp sh ∧
      Tensorize sz nh hd (some (Sum.inr (l1 ++ v :: l2))) pp sh =
        Tensorize sz nh hd (some (Sum.inr (l1 ++ 1 :: l2))) pp sh) ∧
    (∀ (v : Int), v ≤ 0 → ∀ (sz : List (Option Nat)) (nh hd : Option Int)
      (gp sh : Option ScalarOrSeq) (l1 l2 : List Int),
      Matricize sz nh hd gp (some (Sum.inr (l1 ++ v :: l2))) sh =
        Matricize sz nh hd gp (some (Sum.inr (l1 ++ 1 :: l2))) sh ∧
      Tensorize sz nh hd gp (some (Sum.inr (l1 ++ v :: l2))) sh =
        Tensorize sz nh hd gp (some (Sum.inr (l1 ++ 1 :: l2))) sh) := by
  refine ⟨fun v hv sz hd gp pp sh => ⟨?_, ?_⟩,
    fun v hv sz nh gp pp sh => ⟨?_, ?_⟩,
    fun v hv sz nh hd pp sh l1 l2 => ⟨?_, ?_⟩,
    fun v hv sz nh hd gp sh l1 l2 => ⟨?_, ?_⟩⟩
  · exact matricize_nh_clamp v hv sz hd gp pp sh
  · exact tensorize_nh_clamp v hv sz hd gp pp sh
  · exact matricize_hd_clamp v hv sz nh gp pp sh
  · exact tensorize_hd_clamp v hv sz nh gp pp sh
  · exact matricize_grid_clamp v hv sz nh hd pp sh l1 l2
  · exact tensorize_grid_clamp v hv sz nh hd pp sh l1 l2
  · exact matricize_patch_clamp v hv sz nh hd gp sh l1 l2
  · exact tensorize_patch_clamp v hv sz nh hd gp sh l1 l2

/-- Witness for C10: `numHeads=0` gives exactly the same constructed
transform as `numHeads=1`. -/
theorem nonpositive_hints_clamped_witness :
    Matricize [some 1, some 4, some 8, some 8] (some 0) (some 2)
        (some (Sum.inl 2)) (some (Sum.inl 4)) none =
      Matricize [some 1, some 4, some 8, some 8] (some 1) (some 2)
        (some (Sum.inl 2)) (some (Sum.inl 4)) none :=
  (nonpositive_hints_clamped.1 0 (by decide) [some 1, some 4, some 8, some 8]
    (some 2) (some (Sum.inl 2)) (some (Sum.inl 4)) none).1

/-- Contiguous row slice `x[a : a + len]` along axis 0 of a row-major
tensor. -/
def sliceRows {α : Type} (x : Tensor α) (a len : Nat) : Tensor α :=
  ⟨len :: x.shape.tail,
   (x.data.drop (a * x.shape.tail.prod)).take (len * x.shape.tail.prod)⟩

/-- Model of `torch.cat(list)` along axis 0 on row-major tensors: batch
sizes add, the flat data lists concatenate. -/
def concatT {α : Type} (ts : List (Tensor α)) : Tensor α :=
  ⟨((ts.map (fun u => u.shape.headD 0)).sum) :: (ts.headD default).shape.tail,
   (ts.map Tensor.data).flatten⟩

/-- Elementwise tensor addition (equal shapes in every use). -/
def addT {α : Type} [Add α] (x y : Tensor α) : Tensor α :=
  ⟨x.shape, x.data.zipWith (· + ·) y.data⟩

/-- The running sum `out = 0.0; out = out + z_j` of the inverse loop:
`0.0 + t` is `t` elementwise, so a nonempty list folds from its head. -/
def sumTensors {α : Type} [Add α] : List (Tensor α) → Tensor α
  | [] => ⟨[], []⟩
  | t :: ts => ts.foldl addT t

/-- Elementwise division by the variant count (`out / num_shifts`). -/
def scaleDiv {α : Type} [DivisionRing α] (t : Tensor α) (V : Nat) : Tensor α :=
  ⟨t.shape, t.data.map (fun a => a / (V : α))⟩

/-- Sequential application of every variant's forward to the same input
(`for shifted_window in self.shifted_windows: out.append(shifted_window(x))`),
an exception anywhere propagating. -/
def swFwGo {α : Type} [Inhabited α] (x : Tensor α) :
    List Reshape → Option (List (Tensor α))
  | [] => some []
  | v :: vs =>
      match Reshape.forward v x, swFwGo x vs with
      | some t, some ts => some (t :: ts)
      | _, _ => none

/-- Model of `SWMatricize.forward` (lines 271-275) and the textually
identical `SWTensorize.forward` (lines 389-393): apply every variant to the
same input, in order, and concatenate along axis 0. -/
def SW.forward {α : Type} [Inhabited α] (vs : List Reshape) (x : Tensor α) :
    Option (Tensor α) :=
  (swFwGo x vs).map concatT

/-- The inverse loop (lines 281-285 / 400-404): for each variant index `j`,
slice rows `[j*c, (j+1)*c)` with `c = b // num_shifts` and apply that
variant's inverse. -/
def swInvGo {α : Type} [Inhabited α] (c : Nat) (x : Tensor α) :
    Nat → List Reshape → Option (List (Tensor α))
  | _, [] => some []
  | j, v :: vs =>
      match Reshape.inverse_forward v (sliceRows x (j * c) c),
          swInvGo c x (j + 1) vs with
      | some t, some ts => some (t :: ts)
      | _, _ => none

/-- Model of `SWMatricize.inverse_forward` (lines 277-288) and the
textually identical `SWTensorize.inverse_forward` (lines 395-407): slice
the batch into `num_shifts` chunks of size `b // num_shifts`, invert each
chunk with its variant, sum the results elementwise and divide by the
variant count.  Note there is no divisibility check on `b`. -/
def SW.inverse_forward {α : Type} [Inhabited α] [DivisionRing α]
    (vs : List Reshape) (x : Tensor α) : Option (Tensor α) :=
  (swInvGo (x.shape.headD 0 / vs.length) x 0 vs).map
    (fun ts => scaleDiv (sumTensors ts) vs.length)

/-- Spec-side formulation: the `V` equal contiguous chunks of the input
along axis 0, in order. -/
def chunksOf {α : Type} (x : Tensor α) (V : Nat) : List (Tensor α) :=
  (List.range V).map
    (fun j => sliceRows x (j * (x.shape.headD 0 / V)) (x.shape.headD 0 / V))

/-- Spec-side formulation: each variant's inverse applied to its own chunk,
in variant order. -/
def invChunks {α : Type} [Inhabited α] :
    List Reshape → List (Tensor α) → Option (List (Tensor α))
  | [], [] => some []
  | v :: vs, c :: cs =>
      match Reshape.inverse_forward v c, invChunks vs cs with
      | some t, some ts => some (t :: ts)
      | _, _ => none
  | _, _ => none

theorem sumTensors_shape {α : Type} [Add α] (t : Tensor α) (ts : List (Tensor α)) :
    (sumTensors (t :: ts)).shape = t.shape := by
  show (ts.foldl addT t).shape = t.shape
  induction ts generalizing t with
  | nil => rfl
  | cons u ts ih => exact ih (addT t u)

theorem invChunks_length {α : Type} [Inhabited α] :
    ∀ {vs : List Reshape} {cs ts : List (Tensor α)},
    invChunks vs cs = some ts → ts.length = vs.length := by
  intro vs
  induction vs with
  | nil =>
    intro cs ts h
    cases cs
    · simp only [invChunks] at h
      injection h with h
      subst h
      rfl
    · simp [invChunks] at h
  | cons v vs ih =>
    intro cs ts h
    cases cs with
    | nil => simp [invChunks] at h
    | cons c cs =>
      simp only [invChunks] at h
      split at h
      · next t ts' ht hts =>
        injection h with h
        subst h
        simpa using congrArg Nat.succ (ih hts)
      · exact absurd h (by simp)

theorem swFwGo_length {α : Type} [Inhabited α] (x : Tensor α) :
    ∀ {vs : List Reshape} {ts : List (Tensor α)},
    swFwGo x vs = some ts → ts.length = vs.length := by
  intro vs
  induction vs with
  | nil =>
    intro ts h
    injection h with h
    subst h
    rfl
  | cons v vs ih =>
    intro ts h
    simp only [swFwGo] at h
    split at h
    · next t ts' ht hts =>
      injection h with h
      subst h
      simpa using congrArg Nat.succ (ih hts)
    · exact absurd h (by simp)

theorem swInvGo_eq_invChunks {α : Type} [Inhabited α] (c : Nat) (x : Tensor α) :
    ∀ (vs : List Reshape) (j : Nat),
    swInvGo c x j vs =
      invChunks vs ((List.range vs.length).map
        (fun i => sliceRows x ((j + i) * c) c)) := by
  intro vs
  induction vs with
  | nil => intro j; rfl
  | cons v vs ih =>
    intro j
    have harg : ((fun i => sliceRows x ((j + i) * c) c) ∘ Nat.succ) =
        (fun i => sliceRows x ((j + 1 + i) * c) c) := by
      funext i
      show sliceRows x ((j + (i + 1)) * c) c = sliceRows x ((j + 1 + i) * c) c
      rw [show j + (i + 1) = j + 1 + i from by omega]
    show (match Reshape.inverse_forward v (sliceRows x (j * c) c),
        swInvGo c x (j + 1) vs with
      | some t, some ts => some (t :: ts)
      | _, _ => none) = _
    rw [ih (j + 1), List.length_cons, List.range_succ_eq_map, List.map_cons,
      List.map_map, harg]
    show _ = (match Reshape.inverse_forward v (sliceRows x ((j + 0) * c) c),
        invChunks vs ((List.range vs.length).map
          (fun i => sliceRows x ((j + 1 + i) * c) c)) with
      | some t, some ts => some (t :: ts)
      | _, _ => none)
    rw [show j + 0 = j from rfl]

theorem flatten_range_chunks {α : Type} (l : List α) (m : Nat) :
    ∀ (n : Nat),
    ((List.range n).map (fun j => (l.drop (j * m)).take m)).flatten =
      l.take (n * m) := by
  intro n
  induction n with
  | zero => simp
  | succ n ih =>
    rw [List.range_succ, List.map_append, List.flatten_append, ih]
    simp only [List.map_cons, List.map_nil, List.flatten_cons,
      List.flatten_nil, List.append_nil]
    rw [← List.take_add, Nat.succ_mul]

theorem sum_const_of_mem {β : Type} (ts : List β) (f : β → Nat) (b : Nat)
    (h : ∀ t ∈ ts, f t = b) : (ts.map f).sum = ts.length * b := by
  induction ts with
  | nil => simp
  | cons t ts ih =>
    simp only [List.map_cons, List.sum_cons, List.length_cons]
    rw [h t (by simp), ih (fun u hu => h u (by simp [hu]))]
    ring

/-- Variant 0 of an `SWMatricize(input_size=(1,2,2,2), num_heads=2,
patch_size=2)`: no shift. -/
def swV1 : Reshape :=
  ⟨mLeft2, mRight2, [some 1, some 2, some 2, some 2],
    [("h", 2), ("p0", 2), ("p1", 2)], none, []⟩

/-- Variant 1 of the same window partition: the default half-patch shift
`(patch // 2, patch // 2) = (1, 1)` on the two spatial axes. -/
def swV2 : Reshape :=
  ⟨mLeft2, mRight2, [some 1, some 2, some 2, some 2],
    [("h", 2), ("p0", 2), ("p1", 2)], some [1, 1], [2, 3]⟩

theorem swV1_from_matricize :
    Matricize [some 1, some 2, some 2, some 2] (some 2) none none
      (some (Sum.inl 2)) none = Except.ok swV1 := by decide

theorem swV2_from_matricize :
    Matricize [some 1, some 2, some 2, some 2] (some 2) none none
      (some (Sum.inl 2)) (some (Sum.inr [1, 1])) = Except.ok swV2 := by decide

def c4x : Tensor Rat := ⟨[1, 2, 2, 2], [0, 1, 2, 3, 4, 5, 6, 7]⟩

def c3y : Tensor Rat :=
  ⟨[4, 1, 1, 4], [0, 1, 2, 3, 4, 5, 6, 7, 8, 9, 10, 11, 12, 13, 14, 15]⟩

def c3ts : List (Tensor Rat) :=
  [⟨[1, 2, 2, 2], [0, 1, 2, 3, 4, 5, 6, 7]⟩,
   ⟨[1, 2, 2, 2], [11, 10, 9, 8, 15, 14, 13, 12]⟩]

def c4ts : List (Tensor Rat) :=
  [⟨[2, 1, 1, 4], [0, 1, 2, 3, 4, 5, 6, 7]⟩,
   ⟨[2, 1, 1, 4], [3, 2, 1, 0, 7, 6, 5, 4]⟩]

/-- Variant 0 of an `SWMatricize(input_size=(1,1,2,2), num_heads=1,
patch_size=2)` (head factor 1, so variant inverses accept any batch). -/
def swW1 : Reshape :=
  ⟨mLeft2, mRight2, [some 1, some 1, some 2, some 2],
    [("h", 1), ("p0", 2), ("p1", 2)], none, []⟩

def swW2 : Reshape :=
  ⟨mLeft2, mRight2, [some 1, some 1, some 2, some 2],
    [("h", 1), ("p0", 2), ("p1", 2)], some [1, 1], [2, 3]⟩

def c5y : Tensor Rat :=
  ⟨[3, 1, 1, 4], [0, 1, 2, 3, 4, 5, 6, 7, 8, 9, 10, 11]⟩

def c5ts : List (Tensor Rat) :=
  [⟨[1, 1, 2, 2], [0, 1, 2, 3]⟩, ⟨[1, 1, 2, 2], [7, 6, 5, 4]⟩]

/-- C4 counterexample: a 2-variant `SWMatricize` with `numHeads=2` on an
input of batch size `B = 1` produces a forward output of batch size 4 —
each variant's Matricize output already has batch `B*numHeads = 2` — not
the claimed `B*V = 1*2 = 2`. -/
theorem swforward_batch_counterexample :
    (SW.forward [swV1, swV2] c4x).map (fun t => t.shape.headD 0) = some 4 ∧
      ¬ ((4 : Nat) = 1 * 2) := by decide

/-- C4 amended: `forward` applies every variant to the same input, in
variant order, and concatenates the results along axis 0; the output batch
is `V` times the common batch size of the VARIANT OUTPUTS, which equals
`B*V` only when the variants preserve batch size (for Matricize variants it
is `B*numHeads*V`). -/
theorem swforward_concat_amended {α : Type} [Inhabited α]
    (vs : List Reshape) (x : Tensor α) (ts : List (Tensor α)) (β : Nat)
    (hmap : swFwGo x vs = some ts)
    (hβ : ∀ t ∈ ts, t.shape.headD 0 = β) :
    SW.forward vs x = some (concatT ts) ∧
    (concatT ts).data = (ts.map Tensor.data).flatten ∧
    (concatT ts).shape.headD 0 = vs.length * β := by
  refine ⟨by unfold SW.forward; rw [hmap]; rfl, rfl, ?_⟩
  show ((ts.map (fun u => u.shape.headD 0)).sum ::
    (ts.headD default).shape.tail).headD 0 = vs.length * β
  rw [List.headD_cons, sum_const_of_mem ts _ β hβ, swFwGo_length x hmap]

/-- Witness for the amended C4 at the concrete window partition. -/
theorem swforward_concat_amended_witness :
    SW.forward [swV1, swV2] c4x = some (concatT c4ts) :=
  (swforward_concat_amended [swV1, swV2] c4x c4ts 2 (by decide) (by decide)).1

/-- C3 counterexample: on an inverse input of batch `B*V = 4` (`B = 2`,
`V = 2`), the 2-variant `numHeads=2` window partition returns a tensor of
batch size 1 — the variant inverses divide the batch by `numHeads` — not
the claimed batch `B = 2`. -/
theorem swinverse_batch_counterexample :
    (4 : Nat) = 2 * 2 ∧
    (SW.inverse_forward [swV1, swV2] c3y).map (fun t => t.shape.headD 0) =
      some 1 ∧
    ¬ ((1 : Nat) = 2) := by decide

/-- C3 amended: on an input of batch `B*V`, `inverse_forward` splits the
input along axis 0 into `V` equal contiguous chunks of batch `B` (in
variant order, reassembling exactly the input), applies each variant's
inverse to its chunk, sums the results elementwise and divides by `V`; the
returned tensor has the shape of the variant inverses' outputs — its batch
is `B` only when the variants preserve batch size (for Matricize variants
it is `B / numHeads`). -/
theorem swinverse_split_average_amended {α : Type} [Inhabited α]
    [DivisionRing α] (vs : List Reshape) (x : Tensor α) (B : Nat)
    (ts : List (Tensor α))
    (hne : vs ≠ []) (hsh : x.shape ≠ [])
    (hbatch : x.shape.headD 0 = B * vs.length)
    (hwf : x.data.length = x.shape.prod)
    (hinv : invChunks vs (chunksOf x vs.length) = some ts) :
    SW.inverse_forward vs x = some (scaleDiv (sumTensors ts) vs.length) ∧
    (chunksOf x vs.length).length = vs.length ∧
    (∀ ch ∈ chunksOf x vs.length, ch.shape.headD 0 = B) ∧
    ((chunksOf x vs.length).map Tensor.data).flatten = x.data ∧
    (scaleDiv (sumTensors ts) vs.length).shape = (ts.headD default).shape := by
  have hVpos : 0 < vs.length := List.length_pos.2 hne
  have hc : x.shape.headD 0 / vs.length = B := by
    rw [hbatch]
    exact Nat.mul_div_cancel B hVpos
  have hch : (List.range vs.length).map
      (fun i => sliceRows x ((0 + i) * (x.shape.headD 0 / vs.length))
        (x.shape.headD 0 / vs.length)) = chunksOf x vs.length := by
    unfold chunksOf
    apply List.map_congr_left
    intro i _
    rw [Nat.zero_add]
  refine ⟨?_, by simp [chunksOf], ?_, ?_, ?_⟩
  · unfold SW.inverse_forward
    rw [swInvGo_eq_invChunks _ x vs 0, hch, hinv]
    rfl
  · intro ch hmem
    unfold chunksOf at hmem
    rw [List.mem_map] at hmem
    obtain ⟨j, _, rfl⟩ := hmem
    show x.shape.headD 0 / vs.length = B
    exact hc
  · obtain ⟨b, tl, hsplit⟩ : ∃ b tl, x.shape = b :: tl := by
      cases hx : x.shape with
      | nil => exact absurd hx hsh
      | cons b tl => exact ⟨b, tl, rfl⟩
    have hdata : ∀ j : Nat, (sliceRows x (j * (x.shape.headD 0 / vs.length))
        (x.shape.headD 0 / vs.length)).data =
        (x.data.drop (j * (B * x.shape.tail.prod))).take (B * x.shape.tail.prod) := by
      intro j
      show (x.data.drop ((j * (x.shape.headD 0 / vs.length)) * x.shape.tail.prod)).take
          ((x.shape.headD 0 / vs.length) * x.shape.tail.prod) =
        (x.data.drop (j * (B * x.shape.tail.prod))).take (B * x.shape.tail.prod)
      rw [hc, Nat.mul_assoc]
    unfold chunksOf
    rw [List.map_map]
    have hfun : (Tensor.data ∘ fun j => sliceRows x
        (j * (x.shape.headD 0 / vs.length)) (x.shape.headD 0 / vs.length)) =
        (fun j => (x.data.drop (j * (B * x.shape.tail.prod))).take
          (B * x.shape.tail.prod)) := by
      funext j
      exact hdata j
    rw [hfun, flatten_range_chunks]
    have hb : b = B * vs.length := by
      have h2 := hbatch
      rw [hsplit] at h2
      exact h2
    have hlen : x.data.length = vs.length * (B * x.shape.tail.prod) := by
      rw [hwf, hsplit]
      show b * tl.prod = vs.length * (B * tl.prod)
      rw [hb]
      ring
    rw [← hlen]
    exact List.take_length x.data
  · have htne : ts ≠ [] := by
      intro hc2
      have := invChunks_length hinv
      rw [hc2] at this
      simp at this
      omega
    obtain ⟨t, ts', rfl⟩ : ∃ t ts', ts = t :: ts' := by
      cases ts with
      | nil => exact absurd rfl htne
      | cons t ts' => exact ⟨t, ts', rfl⟩
    show (sumTensors (t :: ts')).shape = t.shape
    exact sumTensors_shape t ts'

/-- Witness for the amended C3 at the concrete window partition. -/
theorem swinverse_split_average_amended_witness :
    SW.inverse_forward [swV1, swV2] c3y =
      some (scaleDiv (sumTensors c3ts) 2) :=
  (swinverse_split_average_amended [swV1, swV2] c3y 2 c3ts (by decide)
    (by decide) (by decide) (by decide) (by decide)).1

/-- C5 counterexample: the inverse of the 2-variant window partition on an
input of batch 3 (not divisible by 2) does NOT fail: it silently uses two
chunks of `3 // 2 = 1` rows (dropping the third row) and returns a
result. -/
theorem swinverse_no_divisibility_check :
    ¬ ((2 : Nat) ∣ 3) ∧
    (SW.inverse_forward [swW1, swW2] c5y).isSome = true := by decide

/-- C5 amended: `inverse_forward` performs no divisibility check: even when
the batch is not divisible by `V` it splits off `V` chunks of
`⌊batch / V⌋` rows (silently ignoring the trailing `batch mod V` rows) and
succeeds whenever the per-chunk variant inverses succeed; a shape error
occurs only if a chunk is itself incompatible with a variant inverse. -/
theorem swinverse_floor_chunks_amended {α : Type} [Inhabited α]
    [DivisionRing α] (vs : List Reshape) (x : Tensor α)
    (ts : List (Tensor α))
    (_hndvd : ¬ (vs.length ∣ x.shape.headD 0))
    (hinv : invChunks vs (chunksOf x vs.length) = some ts) :
    SW.inverse_forward vs x = some (scaleDiv (sumTensors ts) vs.length) := by
  have hch : (List.range vs.length).map
      (fun i => sliceRows x ((0 + i) * (x.shape.headD 0 / vs.length))
        (x.shape.headD 0 / vs.length)) = chunksOf x vs.length := by
    unfold chunksOf
    apply List.map_congr_left
    intro i _
    rw [Nat.zero_add]
  unfold SW.inverse_forward
  rw [swInvGo_eq_invChunks _ x vs 0, hch, hinv]
  rfl

/-- Witness for the amended C5: batch 3, two variants. -/
theorem swinverse_floor_chunks_amended_witness :
    SW.inverse_forward [swW1, swW2] c5y =
      some (scaleDiv (sumTensors c5ts) 2) :=
  swinverse_floor_chunks_amended [swW1, swW2] c5y c5ts (by decide) (by decide)

/-- One factor matrix of a `FactorMatrixSet`: extent of its axis and its
entries, indexed by (batch, axis index, rank column). -/
structure FactorM (α : Type) where
  ext : Nat
  val : Nat → Nat → Nat → α

/-- Finite sum over `r = 0 .. n-1`. -/
def sumR {α : Type} [CommSemiring α] (n : Nat) (f : Nat → α) : α :=
  ((List.range n).map f).sum

/-- Product over the factor matrices of the entries selected by one
multi-index, at a fixed batch and rank column — the summand of the einsum
`"b i0 r, b i1 r, ... -> b i0 i1 ..."` that `cp` (lines 44-54) evaluates. -/
def prodFs {α : Type} [CommSemiring α] :
    List (FactorM α) → List Nat → Nat → Nat → α
  | [], _, _, _ => 1
  | f :: fs, i :: ix, b, r => f.val b i r * prodFs fs ix b r
  | _ :: _, [], _, _ => 1

/-- Entry semantics of `cp(factor_matrices)` (lines 44-54): the einsum over
legs `b, i0..iM-1` summed over the shared rank leg — for each rank column
the outer product of the per-axis vectors, summed over rank. -/
def cp {α : Type} [CommSemiring α] (fs : List (FactorM α)) (rank b : Nat)
    (ix : List Nat) : α :=
  sumR rank (fun r => prodFs fs ix b r)

/-- Entry semantics of `khatri_rao(factor_matrices)` (lines 57-69): the
same outer product per batch and rank column without the rank sum, with
the M axis dimensions flattened row-major into one merged axis
(`torch.flatten(out, start_dim=1, end_dim=-2)`), indexed here by the
flat index `j`. -/
def khatri_rao {α : Type} [CommSemiring α] (fs : List (FactorM α))
    (b j r : Nat) : α :=
  prodFs fs (unflattenIdx (fs.map FactorM.ext) j) b r

/-- C7: for every factor-matrix set with `M ≥ 1` factors and every in-range
multi-index `(i0, ..., iM-1)`, the `cp` reconstruction entry at that index
equals the sum over rank columns of the `khatri_rao` entries at the
row-major flattening of the multi-index — `cp(factors)[b, i0..iM] =
sum_r khatri_rao(factors)[b, flatten(i0..iM), r]`. -/
theorem cp_khatri_rao_consistent {α : Type} [CommSemiring α]
    (fs : List (FactorM α)) (rank b : Nat) (ix : List Nat)
    (_hM : 1 ≤ fs.length)
    (hb : List.Forall₂ (· < ·) ix (fs.map FactorM.ext)) :
    cp fs rank b ix =
      sumR rank (fun r =>
        khatri_rao fs b (flattenIdx (fs.map FactorM.ext) ix) r) := by
  unfold cp khatri_rao
  rw [unflattenIdx_flattenIdx hb]

/-- A concrete two-factor set over ℤ for exercising C7. -/
def c7fs : List (FactorM Int) :=
  [⟨2, fun b i r => (b : Int) + 2 * (i : Int) + 3 * (r : Int)⟩,
   ⟨3, fun b i r => (b : Int) * (i : Int) + (r : Int)⟩]

/-- Witness for C7 at `rank = 2`, batch 1, multi-index `(1, 2)`. -/
theorem cp_khatri_rao_consistent_witness :
    cp c7fs 2 1 [1, 2] =
      sumR 2 (fun r =>
        khatri_rao c7fs 1 (flattenIdx (c7fs.map FactorM.ext) [1, 2]) r) :=
  cp_khatri_rao_consistent c7fs 2 1 [1, 2] (by decide)
    (List.Forall₂.cons (by decide)
      (List.Forall₂.cons (by decide) List.Forall₂.nil))

theorem filter_length_unique_false (P : String → Bool) :
    ∀ (ds : List String) (u : String), ds.Nodup → u ∈ ds → P u = false →
    (∀ v ∈ ds, v ≠ u → P v = true) →
    (ds.filter P).length + 1 = ds.length := by
  intro ds
  induction ds with
  | nil => intro u _ hu; simp at hu
  | cons d ds ih =>
    intro u hnd hu hPu hothers
    rw [List.nodup_cons] at hnd
    rcases List.mem_cons.1 hu with hdu | hu2
    · subst hdu
      rw [List.filter_cons_of_neg (by simp [hPu])]
      have hall : ds.filter P = ds := by
        rw [List.filter_eq_self]
        intro v hv
        exact hothers v (by simp [hv]) (fun hc => hnd.1 (hc ▸ hv))
      rw [hall]
      rfl
    · have hdP : P d = true := hothers d (by simp)
        (fun hc => hnd.1 (hc ▸ hu2))
      rw [List.filter_cons_of_pos hdP]
      have := ih u hnd.2 hu2 hPu (fun v hv hvu => hothers v (by simp [hv]) hvu)
      simp only [List.length_cons]
      omega

theorem inferStep_assigns_unique (known acc : Dict) (ds : List String)
    (n : Nat) (u : String) (hnd : ds.Nodup) (hu : u ∈ ds)
    (hunk : dget known u = none)
    (hothers : ∀ v ∈ ds, v ≠ u → (dget known v).isSome) :
    dget (inferStep known acc ds (some n)) u =
      some (n / prodKnown ds known) := by
  have hcount : (ds.filter (fun d => (dget known d).isSome)).length + 1 =
      ds.length :=
    filter_length_unique_false _ ds u hnd hu (by simp [hunk]) hothers
  show dget (if knownCount ds known < ds.length - 1 then copyKnown known acc ds
    else assignAll known (n / prodKnown ds known) acc ds) u = _
  rw [if_neg (by unfold knownCount; omega)]
  rw [dget_assignAll, if_pos hu, hunk]
  rfl

theorem inferGo_not_mem (known : Dict) (u : String) :
    ∀ (gs : List (List String)) (ss : List (Option Nat)) (acc : Dict),
    u ∉ gs.flatten →
    dget (inferGo known gs ss acc) u = dget acc u := by
  intro gs
  induction gs with
  | nil => intro ss acc _; rfl
  | cons ds gs ih =>
    intro ss acc hu
    simp only [List.flatten_cons, List.mem_append] at hu
    push_neg at hu
    cases ss with
    | nil => rfl
    | cons s ss =>
      show dget (inferGo known gs ss (inferStep known acc ds s)) u = _
      rw [ih ss _ hu.2, inferStep_not_mem _ _ _ _ _ hu.1]

theorem inferGo_append (known : Dict) :
    ∀ (gs1 : List (List String)) (ss1 : List (Option Nat))
      (gs2 : List (List String)) (ss2 : List (Option Nat)) (acc : Dict),
    gs1.length = ss1.length →
    inferGo known (gs1 ++ gs2) (ss1 ++ ss2) acc =
      inferGo known gs2 ss2 (inferGo known gs1 ss1 acc) := by
  intro gs1
  induction gs1 with
  | nil =>
    intro ss1 gs2 ss2 acc hlen
    cases ss1
    · rfl
    · simp at hlen
  | cons ds gs1 ih =>
    intro ss1 gs2 ss2 acc hlen
    cases ss1 with
    | nil => simp at hlen
    | cons s ss1 =>
      show inferGo known (gs1 ++ gs2) (ss1 ++ ss2) (inferStep known acc ds s) = _
      exact ih ss1 gs2 ss2 (inferStep known acc ds s) (by simpa using hlen)

/-- C6: in `infer_dims`, for a group whose declared size `n` is known and in
which exactly one member axis `u` is unknown (the other members all known),
the unknown axis is assigned `n / known_product` by integer floor division,
with no divisibility validation (third conjunct: size 7 with known factor 2
silently yields 3); and on the spec's scenario — input shape
`(None, 8, 16, 16)`, equation left side `b (h d) (g0 p0) (g1 p1)`, hints
`h=2, g0=4, g1=4` — inference yields `d=4, p0=4, p1=4` exactly.  (A zero
known extent, which would raise `ZeroDivisionError` in the source, is
excluded by the positivity hypothesis.) -/
theorem infer_dims_floor_division :
    (∀ (known : Dict) (gpre gpost : List (List String))
       (spre spost : List (Option Nat)) (ds : List String) (n : Nat)
       (u : String),
      gpre.length = spre.length → ds.Nodup → u ∈ ds →
      dget known u = none →
      (∀ v ∈ ds, v ≠ u → (dget known v).isSome) →
      u ∉ gpost.flatten →
      0 < prodKnown ds known →
      dget (infer_dims (gpre ++ ds :: gpost) (spre ++ some n :: spost) known) u
        = some (n / prodKnown ds known)) ∧
    (dget (infer_dims [["b"], ["h", "d"], ["g0", "p0"], ["g1", "p1"]]
        [none, some 8, some 16, some 16]
        [("h", 2), ("g0", 4), ("g1", 4)]) "d" = some 4 ∧
      dget (infer_dims [["b"], ["h", "d"], ["g0", "p0"], ["g1", "p1"]]
        [none, some 8, some 16, some 16]
        [("h", 2), ("g0", 4), ("g1", 4)]) "p0" = some 4 ∧
      dget (infer_dims [["b"], ["h", "d"], ["g0", "p0"], ["g1", "p1"]]
        [none, some 8, some 16, some 16]
        [("h", 2), ("g0", 4), ("g1", 4)]) "p1" = some 4) ∧
    (¬ ((2 : Nat) ∣ 7) ∧
      dget (infer_dims [["a", "c"]] [some 7] [("a", 2)]) "c" = some 3) := by
  refine ⟨?_, by decide, by decide⟩
  intro known gpre gpost spre spost ds n u hlen hnd hu hunk hothers hpost _hkp
  unfold infer_dims
  rw [inferGo_append known gpre spre (ds :: gpost) (some n :: spost) [] hlen]
  show dget (inferGo known gpost spost
    (inferStep known (inferGo known gpre spre []) ds (some n))) u = _
  rw [inferGo_not_mem known u gpost spost _ hpost]
  exact inferStep_assigns_unique known _ ds n u hnd hu hunk hothers

/-- Witness for C6's general conjunct: the group `(h d)` of the scenario,
declared size 8, `h=2` known, `d` unknown, yields `d = 8 / 2 = 4`. -/
theorem infer_dims_floor_division_witness :
    dget (infer_dims ([["b"]] ++ ["h", "d"] :: [["g0", "p0"], ["g1", "p1"]])
        ([none] ++ some 8 :: [some 16, some 16])
        [("h", 2), ("g0", 4), ("g1", 4)]) "d" =
      some (8 / prodKnown ["h", "d"] [("h", 2), ("g0", 4), ("g1", 4)]) :=
  infer_dims_floor_division.1 [("h", 2), ("g0", 4), ("g1", 4)]
    [["b"]] [["g0", "p0"], ["g1", "p1"]] [none] [some 16, some 16]
    ["h", "d"] 8 "d" (by decide) (by decide) (by decide) (by decide)
    (by decide) (by decide) (by decide)

end Factorizer
